import Mathlib

/-!
A verification development for the `bifrost-timeseries` storage engine
(packages/bifrost-timeseries/src).  The Rust data model and operations are
shallowly embedded as executable Lean definitions: machine integers become
`Nat`/`Int` (with explicit `% 2^w` where the source wraps), `VecDeque` and
`Vec` become `List`, `BTreeMap`/`HashMap` become association lists, fallible
paths return `Option`/`Except`.  External crates (zstd, bincode on data
points) are parameters constrained by the round-trip facts their documentation
guarantees; everything belonging to this repository is translated line by
line from the source.
-/

namespace Bifrost

/-- Timestamp type: i64 nanoseconds since epoch (types.rs). -/
abbrev Timestamp := Int

/-- `Value` enum from types.rs.  `Float(f64)` is modeled by its 64-bit
pattern, which is what serialization and storage act on. -/
inductive Value where
  | Integer (i : Int)
  | Float (bits : Nat)
  | Boolean (b : Bool)
  | String (s : String)
  | Bytes (b : List Nat)
  deriving DecidableEq, Repr, Inhabited

/-- `Value::size_bytes` from types.rs. -/
def Value.sizeBytes : Value → Nat
  | .Integer _ => 8
  | .Float _ => 8
  | .Boolean _ => 1
  | .String s => s.utf8ByteSize
  | .Bytes b => b.length

/-- `DataPoint` from types.rs.  The `HashMap<String,String>` of tags is
modeled as the association list of its (unique-key) entries in iteration
order. -/
structure DataPoint where
  timestamp : Timestamp
  value : Value
  tags : Option (List (String × String))
  deriving DecidableEq, Repr, Inhabited

/-- `DataPoint::with_timestamp` from types.rs. -/
def DataPoint.withTimestamp (ts : Timestamp) (v : Value) : DataPoint :=
  ⟨ts, v, none⟩

/-- `DataPoint::size_bytes` from types.rs. -/
def DataPoint.sizeBytes (dp : DataPoint) : Nat :=
  8 + dp.value.sizeBytes +
    (match dp.tags with
     | none => 0
     | some ts => (ts.map (fun kv => kv.1.utf8ByteSize + kv.2.utf8ByteSize)).sum)

/-! ## Circular buffer (buffer.rs) -/

/-- `CircularBuffer` from buffer.rs.  The `VecDeque` is a list with the
front at the head. -/
structure CircularBuffer where
  buffer : List DataPoint
  capacity : Nat
  ttl_seconds : Nat
  total_written : Nat
  total_evicted : Nat
  memory_usage : Nat
  deriving DecidableEq, Repr

/-- `CircularBuffer::new`. -/
def CircularBuffer.new (capacity : Nat) : CircularBuffer :=
  ⟨[], capacity, 0, 0, 0, 0⟩

/-- `CircularBuffer::with_ttl`. -/
def CircularBuffer.withTtl (capacity ttl : Nat) : CircularBuffer :=
  ⟨[], capacity, ttl, 0, 0, 0⟩

/-- Wrap an unbounded integer to i64 two's-complement range. -/
def toI64 (n : Int) : Int := ((n + 2 ^ 63) % 2 ^ 64) - 2 ^ 63

/-- `(self.ttl_seconds as i64) * 1_000_000_000` (release-mode wrapping). -/
def CircularBuffer.ttlNanos (cb : CircularBuffer) : Int :=
  toI64 (toI64 cb.ttl_seconds * 1000000000)

/-- Loop body of `CircularBuffer::remove_expired`: pop expired points from
the front, decrementing `memory_usage` with saturating subtraction (`Nat`
subtraction) and counting evictions.  The age test
`current_time - front.timestamp > ttl_nanos` is i64 arithmetic, so the
subtraction wraps (release mode). -/
def removeExpiredGo (now ttlNs : Int) :
    List DataPoint → Nat → Nat → List DataPoint × Nat × Nat
  | [], mem, ev => ([], mem, ev)
  | dp :: rest, mem, ev =>
    if toI64 (now - dp.timestamp) > ttlNs then
      removeExpiredGo now ttlNs rest (mem - dp.sizeBytes) (ev + 1)
    else (dp :: rest, mem, ev)

/-- `CircularBuffer::remove_expired`, with the wall clock (`chrono::Utc::now`
in nanoseconds) passed explicitly as `now`. -/
def CircularBuffer.removeExpired (cb : CircularBuffer) (now : Int) : CircularBuffer :=
  if cb.ttl_seconds = 0 then cb
  else
    { cb with
      buffer := (removeExpiredGo now cb.ttlNanos cb.buffer cb.memory_usage cb.total_evicted).1
      memory_usage := (removeExpiredGo now cb.ttlNanos cb.buffer cb.memory_usage cb.total_evicted).2.1
      total_evicted := (removeExpiredGo now cb.ttlNanos cb.buffer cb.memory_usage cb.total_evicted).2.2 }

/-- The capacity check inside `CircularBuffer::push`: if the buffer is at
capacity, pop the front, decrement `memory_usage` (saturating) and count
the eviction. -/
def CircularBuffer.evictIfFull (cb : CircularBuffer) : CircularBuffer :=
  if cb.buffer.length ≥ cb.capacity then
    match cb.buffer with
    | [] => cb
    | front :: rest =>
      { cb with
        buffer := rest
        memory_usage := cb.memory_usage - front.sizeBytes
        total_evicted := cb.total_evicted + 1 }
  else cb

/-- The tail of `CircularBuffer::push`: append the new point at the back
and update the counters. -/
def CircularBuffer.appendSample (cb : CircularBuffer) (dp : DataPoint) : CircularBuffer :=
  { cb with
    buffer := cb.buffer ++ [dp]
    memory_usage := cb.memory_usage + dp.sizeBytes
    total_written := cb.total_written + 1 }

/-- `CircularBuffer::push` (always returns `Ok(())` in the source, so the
`Result` wrapper is dropped): remove expired points, evict the front when at
capacity, append the new point. -/
def CircularBuffer.push (cb : CircularBuffer) (now : Int) (dp : DataPoint) : CircularBuffer :=
  ((cb.removeExpired now).evictIfFull).appendSample dp

/-- `CircularBuffer::get_range`. -/
def CircularBuffer.getRange (cb : CircularBuffer) (start stop : Timestamp) : List DataPoint :=
  cb.buffer.filter (fun dp => start ≤ dp.timestamp ∧ dp.timestamp ≤ stop)

/-- `CircularBuffer::get_latest`. -/
def CircularBuffer.getLatest (cb : CircularBuffer) (count : Nat) : List DataPoint :=
  ((cb.buffer.reverse.take count).reverse)

/-- `CircularBuffer::len`. -/
def CircularBuffer.len (cb : CircularBuffer) : Nat := cb.buffer.length

/-- `CircularBuffer::is_full`. -/
def CircularBuffer.isFull (cb : CircularBuffer) : Bool := cb.buffer.length ≥ cb.capacity

/-- `CircularBuffer::clear`: drops the contents and resets `memory_usage`,
leaving `total_written` and `total_evicted` untouched. -/
def CircularBuffer.clear (cb : CircularBuffer) : CircularBuffer :=
  { cb with buffer := [], memory_usage := 0 }

/-- `CircularBuffer::compact` (`shrink_to_fit` has no observable effect on
the model). -/
def CircularBuffer.compact (cb : CircularBuffer) (now : Int) : CircularBuffer :=
  cb.removeExpired now

/-- A buffer state whose `memory_usage` counter equals the sum of the sizes
of the contained samples — the accounting invariant every buffer reachable
through the public API satisfies. -/
def CircularBuffer.WellFormed (cb : CircularBuffer) : Prop :=
  cb.memory_usage = (cb.buffer.map DataPoint.sizeBytes).sum

instance (cb : CircularBuffer) : Decidable cb.WellFormed := by
  unfold CircularBuffer.WellFormed; infer_instance

/-- The public `CircularBuffer` operations; query operations take `&self`
in the source and leave the state unchanged. -/
inductive BufOp where
  | push (now : Int) (dp : DataPoint)
  | clear
  | compact (now : Int)
  | getRange (start stop : Timestamp)
  | getLatest (n : Nat)
  | stats
  deriving DecidableEq, Repr

/-- Effect of one public operation on the buffer state. -/
def BufOp.apply (cb : CircularBuffer) : BufOp → CircularBuffer
  | .push now dp => cb.push now dp
  | .clear => cb.clear
  | .compact now => cb.compact now
  | .getRange _ _ => cb
  | .getLatest _ => cb
  | .stats => cb

/-- Run a sequence of public operations. -/
def runOps (cb : CircularBuffer) (ops : List BufOp) : CircularBuffer :=
  ops.foldl BufOp.apply cb

/-- The eviction-accounting balance: every written sample is either still in
the buffer or was counted as evicted. -/
def Accounted (cb : CircularBuffer) : Prop :=
  cb.total_written = cb.len + cb.total_evicted

instance (cb : CircularBuffer) : Decidable (Accounted cb) := by
  unfold Accounted; infer_instance

/-- A sample shared by the concrete evaluations below. -/
def dp0 : DataPoint := ⟨0, .Integer 0, none⟩

theorem removeExpiredGo_balance (now ttlNs : Int) (b : List DataPoint) (m e : Nat) :
    (removeExpiredGo now ttlNs b m e).1.length + (removeExpiredGo now ttlNs b m e).2.2
      = b.length + e := by
  induction b generalizing m e with
  | nil => simp [removeExpiredGo]
  | cons dp rest ih =>
    by_cases h : toI64 (now - dp.timestamp) > ttlNs
    · simp only [removeExpiredGo, if_pos h]
      rw [ih]
      simp
      omega
    · simp [removeExpiredGo, if_neg h]

theorem removeExpired_balance (cb : CircularBuffer) (now : Int) :
    (cb.removeExpired now).len + (cb.removeExpired now).total_evicted
      = cb.len + cb.total_evicted ∧
    (cb.removeExpired now).total_written = cb.total_written ∧
    (cb.removeExpired now).capacity = cb.capacity ∧
    (cb.removeExpired now).ttl_seconds = cb.ttl_seconds := by
  unfold CircularBuffer.removeExpired
  by_cases h : cb.ttl_seconds = 0
  · simp [h]
  · rw [if_neg h]
    exact ⟨removeExpiredGo_balance now cb.ttlNanos cb.buffer cb.memory_usage cb.total_evicted,
      rfl, rfl, rfl⟩

theorem evictIfFull_balance (cb : CircularBuffer) :
    (cb.evictIfFull).len + (cb.evictIfFull).total_evicted = cb.len + cb.total_evicted ∧
    (cb.evictIfFull).total_written = cb.total_written := by
  unfold CircularBuffer.evictIfFull
  by_cases hfull : cb.buffer.length ≥ cb.capacity
  · rw [if_pos hfull]
    cases hbuf : cb.buffer with
    | nil => simp [CircularBuffer.len, hbuf]
    | cons front rest => simp [CircularBuffer.len, hbuf]; omega
  · rw [if_neg hfull]
    exact ⟨rfl, rfl⟩

theorem push_accounted (cb : CircularBuffer) (now : Int) (dp : DataPoint)
    (h : Accounted cb) : Accounted (cb.push now dp) := by
  obtain ⟨hbal1, hwr1, -, -⟩ := removeExpired_balance cb now
  obtain ⟨hbal2, hwr2⟩ := evictIfFull_balance (cb.removeExpired now)
  simp only [Accounted, CircularBuffer.len] at h hbal1 hbal2 hwr1 hwr2 ⊢
  unfold CircularBuffer.push CircularBuffer.appendSample
  simp
  omega

theorem apply_accounted (cb : CircularBuffer) (op : BufOp)
    (hop : op ≠ BufOp.clear) (h : Accounted cb) : Accounted (op.apply cb) := by
  cases op with
  | push now dp => exact push_accounted cb now dp h
  | clear => exact absurd rfl hop
  | compact now =>
    obtain ⟨hbal, hwr, _, _⟩ := removeExpired_balance cb now
    simp only [BufOp.apply, CircularBuffer.compact, Accounted] at *
    omega
  | getRange s e => exact h
  | getLatest n => exact h
  | stats => exact h

theorem runOps_accounted (cb : CircularBuffer) (ops : List BufOp)
    (hops : ∀ op ∈ ops, op ≠ BufOp.clear) (h : Accounted cb) :
    Accounted (runOps cb ops) := by
  induction ops generalizing cb with
  | nil => exact h
  | cons op rest ih =>
    exact ih (op.apply cb) (fun o ho => hops o (List.mem_cons_of_mem op ho))
      (apply_accounted cb op (hops op (List.mem_cons_self op rest)) h)

theorem removeExpired_ttl_zero (cb : CircularBuffer) (now : Int)
    (httl : cb.ttl_seconds = 0) : cb.removeExpired now = cb := by
  simp [CircularBuffer.removeExpired, httl]

theorem removeExpired_front_fresh (cb : CircularBuffer) (now : Int)
    (hexp : cb.ttl_seconds = 0 ∨
      ∀ front ∈ cb.buffer.head?, ¬ toI64 (now - front.timestamp) > cb.ttlNanos) :
    cb.removeExpired now = cb := by
  rcases hexp with httl | hfront
  · exact removeExpired_ttl_zero cb now httl
  · unfold CircularBuffer.removeExpired
    by_cases httl : cb.ttl_seconds = 0
    · rw [if_pos httl]
    · rw [if_neg httl]
      have hgo : removeExpiredGo now cb.ttlNanos cb.buffer cb.memory_usage cb.total_evicted
          = (cb.buffer, cb.memory_usage, cb.total_evicted) := by
        cases hbuf : cb.buffer with
        | nil => rfl
        | cons front rest =>
          have h1 : ¬ toI64 (now - front.timestamp) > cb.ttlNanos :=
            hfront front (by rw [hbuf]; rfl)
          unfold removeExpiredGo
          rw [if_neg h1]
      rw [hgo]

/-- C4 (amended): on any buffer with TTL disabled, or whose front sample is
not expired at push time (so `remove_expired` pops nothing), `push` on a
non-full buffer grows `len`, `total_written` and `memory_usage` as the claim
states; on a full buffer of capacity at least 1 it keeps `len`, counts one
eviction, and exchanges the front sample's bytes for the new sample's bytes.
(A capacity-0 buffer is "full" while empty, and `push` then grows it without
evicting — the counterexample below.) -/
theorem C4_push_effects (cb : CircularBuffer) (now : Int) (s : DataPoint)
    (hwf : cb.WellFormed)
    (hexp : cb.ttl_seconds = 0 ∨
      ∀ front ∈ cb.buffer.head?, ¬ toI64 (now - front.timestamp) > cb.ttlNanos) :
    (cb.isFull = false →
      (cb.push now s).len = cb.len + 1 ∧
      (cb.push now s).total_written = cb.total_written + 1 ∧
      (cb.push now s).memory_usage = cb.memory_usage + s.sizeBytes) ∧
    (cb.isFull = true → 0 < cb.capacity →
      (cb.push now s).len = cb.len ∧
      (cb.push now s).total_evicted = cb.total_evicted + 1 ∧
      (cb.push now s).memory_usage + cb.buffer.headI.sizeBytes
        = cb.memory_usage + s.sizeBytes) := by
  unfold CircularBuffer.push
  rw [removeExpired_front_fresh cb now hexp]
  constructor
  · intro hnf
    have hlt : ¬ cb.buffer.length ≥ cb.capacity := by
      simpa [CircularBuffer.isFull] using hnf
    unfold CircularBuffer.evictIfFull
    rw [if_neg hlt]
    unfold CircularBuffer.appendSample CircularBuffer.len
    simp
  · intro hf hcap
    have hge : cb.buffer.length ≥ cb.capacity := by
      simpa [CircularBuffer.isFull] using hf
    unfold CircularBuffer.evictIfFull
    rw [if_pos hge]
    cases hbuf : cb.buffer with
    | nil =>
      rw [hbuf] at hge
      simp at hge
      omega
    | cons front rest =>
      have hmem : front.sizeBytes ≤ cb.memory_usage := by
        rw [CircularBuffer.WellFormed, hbuf] at hwf
        simp [hwf]
      unfold CircularBuffer.appendSample CircularBuffer.len
      simp [hbuf]
      omega

/-- Witness for `C4_push_effects`: both branches at concrete buffers with
TTL enabled (3600 s) and a fresh front, exercising the alternative
hypothesis, plus the TTL-disabled non-full branch. -/
theorem C4_push_effects_witness :
    (((CircularBuffer.withTtl 2 3600).push 0 dp0).len
        = (CircularBuffer.withTtl 2 3600).len + 1 ∧
      ((CircularBuffer.withTtl 2 3600).push 0 dp0).total_written
        = (CircularBuffer.withTtl 2 3600).total_written + 1 ∧
      ((CircularBuffer.withTtl 2 3600).push 0 dp0).memory_usage
        = (CircularBuffer.withTtl 2 3600).memory_usage + dp0.sizeBytes) ∧
    ((((CircularBuffer.withTtl 1 3600).push 0 dp0).push 0 dp0).len
        = ((CircularBuffer.withTtl 1 3600).push 0 dp0).len ∧
      (((CircularBuffer.withTtl 1 3600).push 0 dp0).push 0 dp0).total_evicted
        = ((CircularBuffer.withTtl 1 3600).push 0 dp0).total_evicted + 1 ∧
      (((CircularBuffer.withTtl 1 3600).push 0 dp0).push 0 dp0).memory_usage
          + ((CircularBuffer.withTtl 1 3600).push 0 dp0).buffer.headI.sizeBytes
        = ((CircularBuffer.withTtl 1 3600).push 0 dp0).memory_usage + dp0.sizeBytes) ∧
    (((CircularBuffer.new 2).push 0 dp0).len = (CircularBuffer.new 2).len + 1 ∧
      ((CircularBuffer.new 2).push 0 dp0).total_written
        = (CircularBuffer.new 2).total_written + 1 ∧
      ((CircularBuffer.new 2).push 0 dp0).memory_usage
        = (CircularBuffer.new 2).memory_usage + dp0.sizeBytes) := by
  refine ⟨?_, ?_, ?_⟩
  · exact (C4_push_effects (CircularBuffer.withTtl 2 3600) 0 dp0 (by decide)
      (Or.inr (by decide))).1 (by decide)
  · exact (C4_push_effects ((CircularBuffer.withTtl 1 3600).push 0 dp0) 0 dp0 (by decide)
      (Or.inr (by decide))).2 (by decide) (by decide)
  · exact (C4_push_effects (CircularBuffer.new 2) 0 dp0 (by decide)
      (Or.inl (by decide))).1 (by decide)

/-- C4 as stated is false at capacity 0: the buffer is full (`0 ≥ 0`) and
empty, TTL is off, yet `push` grows `len` by one and evicts nothing. -/
theorem C4_counterexample :
    (CircularBuffer.new 0).isFull = true ∧
    (CircularBuffer.new 0).ttl_seconds = 0 ∧
    (CircularBuffer.new 0).WellFormed ∧
    ((CircularBuffer.new 0).push 0 dp0).len = (CircularBuffer.new 0).len + 1 ∧
    ((CircularBuffer.new 0).push 0 dp0).total_evicted
      = (CircularBuffer.new 0).total_evicted := by
  refine ⟨by decide, by decide, by decide, by decide, by decide⟩

/-- C5 (amended): over any sequence of public operations that does not
contain `clear`, `total_written = len + total_evicted` holds after every
operation, so no sample leaves the buffer without `total_evicted` being
incremented.  (`clear` drops the contents without touching the counters —
the counterexample below.) -/
theorem C5_no_silent_loss (cap ttl : Nat) (ops : List BufOp)
    (hops : ∀ op ∈ ops, op ≠ BufOp.clear) :
    Accounted (runOps (CircularBuffer.withTtl cap ttl) ops) :=
  runOps_accounted _ ops hops rfl

/-- Witness for `C5_no_silent_loss` at a concrete operation sequence. -/
theorem C5_no_silent_loss_witness :
    Accounted (runOps (CircularBuffer.withTtl 2 0)
      [BufOp.push 0 dp0, BufOp.push 1 dp0, BufOp.push 2 dp0, BufOp.compact 3,
        BufOp.getLatest 2, BufOp.stats]) :=
  C5_no_silent_loss 2 0 _ (by decide)

/-- C5 as stated is false: after `push` then `clear`, one sample has left
the buffer while `total_evicted` is still 0, and
`total_written = len + total_evicted` fails (1 ≠ 0 + 0). -/
theorem C5_counterexample :
    ¬ Accounted (runOps (CircularBuffer.new 2) [BufOp.push 0 dp0, BufOp.clear]) := by
  decide

/-! ## Adaptive compression (compression.rs)

`bincode` serialization of a batch and the zstd byte codec are external
crates; they enter the model as explicit function parameters (`BatchSerde`,
`ByteCodec`).  The adaptive selection logic itself is translated from
`AdaptiveCompressor::compress_if_beneficial` / `decompress`. -/

/-- `CompressedData` container from compression.rs. -/
structure CompressedData where
  data : List Nat
  is_compressed : Bool
  original_size : Nat
  compressed_size : Nat
  deriving DecidableEq, Repr

/-- The zstd byte codec (`ZstdCompressor::compress_bytes` /
`decompress_bytes`), an external crate modeled as a pair of functions. -/
structure ByteCodec where
  compressBytes : List Nat → List Nat
  decompressBytes : List Nat → Except String (List Nat)

/-- The bincode batch serializer (`bincode::serialize` /
`bincode::deserialize` on `&[DataPoint]`), an external crate modeled as a
pair of functions. -/
structure BatchSerde where
  serialize : List DataPoint → List Nat
  deserialize : List Nat → Except String (List DataPoint)

/-- The `f64` test `compressed.len() as f64 / serialized.len() as f64 < 0.8`
from `compress_if_beneficial`, modeled as the exact rational comparison
`5c < 4s`.  (For `s = 0` the float ratio is `inf` or `NaN`, never `< 0.8`,
matching `5c < 0` being false.) -/
def ratioBeneficial (c s : Nat) : Bool := 5 * c < 4 * s

/-- `AdaptiveCompressor::compress_if_beneficial` (compression.rs 177–210):
store raw when the serialized batch is below `minSize` (default 1024),
otherwise compress and keep the compressed form only when the compression
ratio is below 0.8. -/
def compressIfBeneficial (serde : BatchSerde) (codec : ByteCodec) (minSize : Nat)
    (dataPoints : List DataPoint) : CompressedData :=
  if (serde.serialize dataPoints).length < minSize then
    { data := serde.serialize dataPoints
      is_compressed := false
      original_size := (serde.serialize dataPoints).length
      compressed_size := (serde.serialize dataPoints).length }
  else if ratioBeneficial (codec.compressBytes (serde.serialize dataPoints)).length
      (serde.serialize dataPoints).length then
    { data := codec.compressBytes (serde.serialize dataPoints)
      is_compressed := true
      original_size := (serde.serialize dataPoints).length
      compressed_size := (codec.compressBytes (serde.serialize dataPoints)).length }
  else
    { data := serde.serialize dataPoints
      is_compressed := false
      original_size := (serde.serialize dataPoints).length
      compressed_size := (serde.serialize dataPoints).length }

/-- `AdaptiveCompressor::decompress` (compression.rs 213–222). -/
def decompress (serde : BatchSerde) (codec : ByteCodec) (cd : CompressedData) :
    Except String (List DataPoint) :=
  match (if cd.is_compressed then codec.decompressBytes cd.data else .ok cd.data) with
  | .error e => .error e
  | .ok bytes => serde.deserialize bytes

/-- C2: the adaptive encoder round-trips — whenever the external codec and
serializer are lossless at the batch (which zstd and bincode guarantee),
`decompress (compress_if_beneficial B) = B`, on the compressed branch and on
the raw branch alike. -/
theorem C2_adaptive_roundtrip (serde : BatchSerde) (codec : ByteCodec) (minSize : Nat)
    (b : List DataPoint)
    (hser : serde.deserialize (serde.serialize b) = .ok b)
    (hcodec : codec.decompressBytes (codec.compressBytes (serde.serialize b))
      = .ok (serde.serialize b)) :
    decompress serde codec (compressIfBeneficial serde codec minSize b) = .ok b := by
  unfold compressIfBeneficial decompress
  by_cases hsmall : (serde.serialize b).length < minSize
  · rw [if_pos hsmall]
    simp [hser]
  · rw [if_neg hsmall]
    by_cases hratio : ratioBeneficial (codec.compressBytes (serde.serialize b)).length
        (serde.serialize b).length
    · rw [if_pos hratio]
      simp [hcodec, hser]
    · rw [if_neg hratio]
      simp [hser]

/-- A codec and serializer used to instantiate the compressed branch
concretely: the "serialized" form is five bytes, the "compressed" form one
byte. -/
def wSerde : BatchSerde := ⟨fun _ => [7, 7, 7, 7, 7], fun _ => .ok [dp0]⟩

def wCodec : ByteCodec := ⟨fun _ => [9], fun _ => .ok [7, 7, 7, 7, 7]⟩

/-- Witness for `C2_adaptive_roundtrip`: both the compressed branch
(threshold 4, ratio 1/5) and the raw branch (threshold 1024). -/
theorem C2_adaptive_roundtrip_witness :
    decompress wSerde wCodec (compressIfBeneficial wSerde wCodec 4 [dp0]) = .ok [dp0] ∧
    decompress wSerde wCodec (compressIfBeneficial wSerde wCodec 1024 [dp0]) = .ok [dp0] :=
  ⟨C2_adaptive_roundtrip wSerde wCodec 4 [dp0] rfl rfl,
   C2_adaptive_roundtrip wSerde wCodec 1024 [dp0] rfl rfl⟩

/-- C3 (amended): the stored bytes never exceed the raw serialization, but
the compressed form is kept only when the serialized batch reaches the
1024-byte threshold AND the compression ratio is below 0.8 — not "whenever
the compressed form is strictly smaller".  The stored form is fully
characterized here. -/
theorem C3_stored_size (serde : BatchSerde) (codec : ByteCodec) (minSize : Nat)
    (b : List DataPoint) :
    (compressIfBeneficial serde codec minSize b).data.length
        ≤ (serde.serialize b).length ∧
    ((compressIfBeneficial serde codec minSize b).is_compressed = true ↔
      minSize ≤ (serde.serialize b).length ∧
      ratioBeneficial (codec.compressBytes (serde.serialize b)).length
        (serde.serialize b).length = true) ∧
    ((compressIfBeneficial serde codec minSize b).is_compressed = true →
      (compressIfBeneficial serde codec minSize b).data
        = codec.compressBytes (serde.serialize b)) ∧
    ((compressIfBeneficial serde codec minSize b).is_compressed = false →
      (compressIfBeneficial serde codec minSize b).data = serde.serialize b) := by
  unfold compressIfBeneficial
  by_cases hsmall : (serde.serialize b).length < minSize
  · rw [if_pos hsmall]
    refine ⟨le_refl _, ?_, ?_, fun _ => rfl⟩
    · simp only []
      constructor
      · intro h
        exact absurd h (by simp)
      · rintro ⟨h1, -⟩
        omega
    · intro h
      exact absurd h (by simp)
  · rw [if_neg hsmall]
    by_cases hratio : ratioBeneficial (codec.compressBytes (serde.serialize b)).length
        (serde.serialize b).length = true
    · rw [if_pos hratio]
      have hlt : (codec.compressBytes (serde.serialize b)).length
          < (serde.serialize b).length := by
        have h5 : 5 * (codec.compressBytes (serde.serialize b)).length
            < 4 * (serde.serialize b).length :=
          of_decide_eq_true (by simpa [ratioBeneficial] using hratio)
        omega
      refine ⟨le_of_lt hlt, ?_, fun _ => rfl, ?_⟩
      · simp only []
        constructor
        · intro _
          exact ⟨le_of_not_lt hsmall, hratio⟩
        · intro _
          trivial
      · intro h
        exact absurd h (by simp)
    · rw [if_neg hratio]
      refine ⟨le_refl _, ?_, ?_, fun _ => rfl⟩
      · simp only []
        constructor
        · intro h
          exact absurd h (by simp)
        · rintro ⟨-, h2⟩
          exact absurd h2 hratio
      · intro h
        exact absurd h (by simp)

/-- A serializer/codec pair realizing a compression ratio of 0.95: the
compressed form (1900 bytes) is strictly smaller than the raw serialization
(2000 bytes), yet the encoder stores the raw form because 0.95 ≥ 0.8. -/
def cexSerde : BatchSerde := ⟨fun _ => List.replicate 2000 7, fun _ => .ok []⟩

def cexCodec : ByteCodec := ⟨fun _ => List.replicate 1900 7, .ok⟩

/-- C3 as stated is false: with a compressed form strictly smaller than the
serialized form (1900 < 2000 bytes, ratio 0.95), the encoder still stores
the raw serialization. -/
theorem C3_counterexample :
    (cexCodec.compressBytes (cexSerde.serialize [])).length
        < (cexSerde.serialize []).length ∧
    (compressIfBeneficial cexSerde cexCodec 1024 []).is_compressed = false ∧
    (compressIfBeneficial cexSerde cexCodec 1024 []).data = cexSerde.serialize [] := by
  have e1 : (cexSerde.serialize []).length = 2000 := by
    show (List.replicate 2000 7).length = 2000
    rw [List.length_replicate]
  have e2 : (cexCodec.compressBytes (cexSerde.serialize [])).length = 1900 := by
    show (List.replicate 1900 7).length = 1900
    rw [List.length_replicate]
  refine ⟨by omega, ?_, ?_⟩ <;>
  · unfold compressIfBeneficial
    rw [e1, e2]
    norm_num [ratioBeneficial]

/-! ## Indexes (index.rs)

The `BTreeMap<Timestamp, Vec<usize>>` of `TimeIndex` becomes an association
list kept sorted by key; the two `HashMap` levels of `TagIndex` become
association lists in insertion order (the modeled functions never iterate
over the index maps, only over the query tag set, which is passed as the
list of its entries). -/

/-- `sort_unstable` on a `Vec<usize>` (on `Nat` any sorted permutation is
unique, so insertion sort models it exactly). -/
def sortNat (l : List Nat) : List Nat := List.insertionSort (· ≤ ·) l

/-- `BTreeMap::entry(ts).or_insert_with(Vec::new).push(pos)`: insert into
the key-sorted association list. -/
def insertPos : List (Timestamp × List Nat) → Timestamp → Nat → List (Timestamp × List Nat)
  | [], ts, pos => [(ts, [pos])]
  | (t, ps) :: rest, ts, pos =>
    if ts = t then (t, ps ++ [pos]) :: rest
    else if ts < t then (ts, [pos]) :: (t, ps) :: rest
    else (t, ps) :: insertPos rest ts pos

/-- `TimeIndex` from index.rs. -/
structure TimeIndex where
  index : List (Timestamp × List Nat)
  total_points : Nat
  deriving DecidableEq, Repr

/-- `TimeIndex::new`. -/
def TimeIndex.empty : TimeIndex := ⟨[], 0⟩

/-- `TimeIndex::add_point`. -/
def TimeIndex.addPoint (ti : TimeIndex) (ts : Timestamp) (pos : Nat) : TimeIndex :=
  ⟨insertPos ti.index ts pos, ti.total_points + 1⟩

/-- `TimeIndex::add_points` applied to a fresh index. -/
def TimeIndex.ofInserts (l : List (Timestamp × Nat)) : TimeIndex :=
  l.foldl (fun ti e => ti.addPoint e.1 e.2) TimeIndex.empty

/-- `TimeIndex::get_range` (index.rs 44–53): walk the keys in
`start..=end` in order, concatenate the buckets, `sort_unstable` the
positions. -/
def TimeIndex.getRange (ti : TimeIndex) (start stop : Timestamp) : List Nat :=
  sortNat (((ti.index.filter (fun e => start ≤ e.1 ∧ e.1 ≤ stop)).map Prod.snd).flatten)

/-- `TimeIndex::max_timestamp`: last key of the `BTreeMap`. -/
def TimeIndex.maxTimestamp (ti : TimeIndex) : Option Timestamp :=
  (ti.index.map Prod.fst).getLast?

/-- Inner loop of `TimeIndex::get_last_before` over one bucket's positions
in reverse, stopping at `count`. -/
def collectBucketRev (count : Nat) : List Nat → List Nat → List Nat
  | acc, [] => acc
  | acc, p :: ps => if acc.length ≥ count then acc else collectBucketRev count (acc ++ [p]) ps

/-- Outer loop of `TimeIndex::get_last_before` over the buckets of
`range(..timestamp)` in reverse key order. -/
def lastBeforeGo (count : Nat) : List Nat → List (Timestamp × List Nat) → List Nat
  | acc, [] => acc
  | acc, (_, ps) :: rest =>
    if (collectBucketRev count acc ps.reverse).length ≥ count then
      collectBucketRev count acc ps.reverse
    else lastBeforeGo count (collectBucketRev count acc ps.reverse) rest

/-- `TimeIndex::get_last_before` (index.rs 90–107). -/
def TimeIndex.getLastBefore (ti : TimeIndex) (ts : Timestamp) (count : Nat) : List Nat :=
  (lastBeforeGo count [] ((ti.index.filter (fun e => e.1 < ts)).reverse)).reverse

/-- Update an association list at key `k` (the `HashMap` entry API):
apply `f` to the stored value, or to `dflt` when the key is absent. -/
def assocUpdate {α β : Type} [DecidableEq α] :
    List (α × β) → α → β → (β → β) → List (α × β)
  | [], k, dflt, f => [(k, f dflt)]
  | (k', v) :: rest, k, dflt, f =>
    if k = k' then (k', f v) :: rest else (k', v) :: assocUpdate rest k dflt f

/-- `TagIndex` from index.rs: `key → value → Vec<positions>` plus the
reverse map `position → tags`. -/
structure TagIndex where
  index : List (String × List (String × List Nat))
  reverse_index : List (Nat × List (String × String))
  deriving DecidableEq, Repr

/-- `TagIndex::new`. -/
def TagIndex.empty : TagIndex := ⟨[], []⟩

/-- `TagIndex::add_point` (index.rs 184–195): push the position into every
`(key, value)` bucket and remember the reverse mapping. -/
def TagIndex.addPoint (tix : TagIndex) (pos : Nat) (tags : List (String × String)) : TagIndex :=
  { index := tags.foldl
      (fun ix kv => assocUpdate ix kv.1 []
        (fun vm => assocUpdate vm kv.2 [] (fun ps => ps ++ [pos])))
      tix.index
    reverse_index := assocUpdate tix.reverse_index pos [] (fun _ => tags) }

/-- `TagIndex::get_by_tag`. -/
def TagIndex.getByTag (tix : TagIndex) (k v : String) : Option (List Nat) :=
  match List.lookup k tix.index with
  | none => none
  | some vm => List.lookup v vm

/-- Two-pointer intersection of two position lists from
`TagIndex::get_by_tags_and` / `CombinedIndex::query_combined`. -/
def intersectSorted : List Nat → List Nat → List Nat
  | [], _ => []
  | _ :: _, [] => []
  | a :: as, b :: bs =>
    if a = b then a :: intersectSorted as bs
    else if a < b then intersectSorted as (b :: bs)
    else intersectSorted (a :: as) bs

/-- Loop of `TagIndex::get_by_tags_and` over the query pairs, carrying the
running result (`None` before the first pair): each step sorts both lists
and intersects them; a missing pair returns the empty result at once. -/
def andGo (tix : TagIndex) : List (String × String) → Option (List Nat) → List Nat
  | [], result => result.getD []
  | (k, v) :: rest, result =>
    match tix.getByTag k v with
    | none => []
    | some positions =>
      match result with
      | none => andGo tix rest (some positions)
      | some current =>
        andGo tix rest (some (intersectSorted (sortNat current) (sortNat positions)))

/-- `TagIndex::get_by_tags_and` (index.rs 203–244). -/
def TagIndex.getByTagsAnd (tix : TagIndex) (tags : List (String × String)) : List Nat :=
  if tags = [] then [] else andGo tix tags none

/-- `Vec::dedup`: remove consecutive duplicates. -/
def dedupAdj : List Nat → List Nat
  | [] => []
  | [a] => [a]
  | a :: b :: rest => if a = b then dedupAdj (b :: rest) else a :: dedupAdj (b :: rest)

/-- `TagIndex::get_by_tags_or` (index.rs 247–259): concatenate the buckets
of the query pairs, sort, dedup. -/
def TagIndex.getByTagsOr (tix : TagIndex) (tags : List (String × String)) : List Nat :=
  dedupAdj (sortNat (tags.flatMap (fun kv => ((tix.getByTag kv.1 kv.2).getD []))))

/-- `CombinedIndex` from index.rs: the sample arena plus the two
sub-indexes. -/
structure CombinedIndex where
  time_index : TimeIndex
  tag_index : TagIndex
  data_points : List DataPoint
  deriving DecidableEq, Repr

/-- `CombinedIndex::new`. -/
def CombinedIndex.empty : CombinedIndex := ⟨TimeIndex.empty, TagIndex.empty, []⟩

/-- `CombinedIndex::add_point` (index.rs 335–348): position = current
vector length; register in the time index, in the tag index when tags are
present, then append to the arena. -/
def CombinedIndex.addPoint (ci : CombinedIndex) (dp : DataPoint) : CombinedIndex :=
  { time_index := ci.time_index.addPoint dp.timestamp ci.data_points.length
    tag_index :=
      match dp.tags with
      | none => ci.tag_index
      | some tags => ci.tag_index.addPoint ci.data_points.length tags
    data_points := ci.data_points ++ [dp] }

/-- A `CombinedIndex` built by `add_point`/`add_points` from a list of
samples — exactly the states reachable through the write API. -/
def CombinedIndex.ofList (samples : List DataPoint) : CombinedIndex :=
  samples.foldl CombinedIndex.addPoint CombinedIndex.empty

/-- `&self.data_points[pos]` dereferencing for a position list (total model
of the panicking Rust indexing; the in-bounds invariant is proved in the
C10 theorem). -/
def derefAll (dps : List DataPoint) (ps : List Nat) : List DataPoint :=
  ps.map (fun p => dps.getD p default)

/-- Position set computed by `CombinedIndex::query_time_range`. -/
def CombinedIndex.timePositions (ci : CombinedIndex) (start stop : Timestamp) : List Nat :=
  ci.time_index.getRange start stop

/-- Position set computed by `CombinedIndex::query_tags`. -/
def CombinedIndex.tagPositions (ci : CombinedIndex) (tags : List (String × String))
    (useAnd : Bool) : List Nat :=
  if useAnd then ci.tag_index.getByTagsAnd tags else ci.tag_index.getByTagsOr tags

/-- `CombinedIndex::query_time_range` (index.rs 358–361). -/
def CombinedIndex.queryTimeRange (ci : CombinedIndex) (start stop : Timestamp) :
    List DataPoint :=
  derefAll ci.data_points (ci.timePositions start stop)

/-- `CombinedIndex::query_tags` (index.rs 364–372). -/
def CombinedIndex.queryTags (ci : CombinedIndex) (tags : List (String × String))
    (useAnd : Bool) : List DataPoint :=
  derefAll ci.data_points (ci.tagPositions tags useAnd)

/-- Position list computed inside `CombinedIndex::query_combined`: sort the
time positions and the tag positions, intersect with the two-pointer
merge. -/
def CombinedIndex.queryCombinedPositions (ci : CombinedIndex) (start stop : Timestamp)
    (tags : List (String × String)) (useAnd : Bool) : List Nat :=
  intersectSorted (sortNat (ci.timePositions start stop))
    (sortNat (ci.tagPositions tags useAnd))

/-- `CombinedIndex::query_combined` (index.rs 375–411). -/
def CombinedIndex.queryCombined (ci : CombinedIndex) (start stop : Timestamp)
    (tags : List (String × String)) (useAnd : Bool) : List DataPoint :=
  derefAll ci.data_points (ci.queryCombinedPositions start stop tags useAnd)

/-- `CombinedIndex::get_latest` (index.rs 414–421). -/
def CombinedIndex.getLatest (ci : CombinedIndex) (count : Nat) : List DataPoint :=
  match ci.time_index.maxTimestamp with
  | none => []
  | some maxTs => derefAll ci.data_points (ci.time_index.getLastBefore (maxTs + 1) count)

/-! ### Time-index infrastructure -/

/-- All `(timestamp, position)` entries stored across the buckets of a
time-index association list. -/
def allEntries (idx : List (Timestamp × List Nat)) : List (Timestamp × Nat) :=
  idx.flatMap (fun e => e.2.map (fun p => (e.1, p)))


theorem allEntries_cons (t : Timestamp) (ps : List Nat) (rest : List (Timestamp × List Nat)) :
    allEntries ((t, ps) :: rest) = ps.map (fun p => (t, p)) ++ allEntries rest := rfl

theorem allEntries_insertPos (idx : List (Timestamp × List Nat)) (ts : Timestamp) (pos : Nat) :
    (allEntries (insertPos idx ts pos)).Perm ((ts, pos) :: allEntries idx) := by
  induction idx with
  | nil => simp [allEntries, insertPos]
  | cons e rest ih =>
    obtain ⟨t, ps⟩ := e
    by_cases heq : ts = t
    · subst heq
      rw [insertPos, if_pos rfl, allEntries_cons, allEntries_cons, List.map_append,
        List.append_assoc]
      exact List.perm_middle
    · by_cases hlt : ts < t
      · rw [insertPos, if_neg heq, if_pos hlt, allEntries_cons, allEntries_cons]
        exact List.Perm.refl _
      · rw [insertPos, if_neg heq, if_neg hlt, allEntries_cons, allEntries_cons]
        exact (List.Perm.append_left _ ih).trans List.perm_middle

theorem ofInserts_concat (l : List (Timestamp × Nat)) (e : Timestamp × Nat) :
    TimeIndex.ofInserts (l ++ [e]) = (TimeIndex.ofInserts l).addPoint e.1 e.2 := by
  unfold TimeIndex.ofInserts
  rw [List.foldl_append]
  rfl

theorem allEntries_ofInserts (l : List (Timestamp × Nat)) :
    (allEntries (TimeIndex.ofInserts l).index).Perm l := by
  induction l using List.reverseRecOn with
  | nil => simp [TimeIndex.ofInserts, TimeIndex.empty, allEntries]
  | append_singleton l e ih =>
    obtain ⟨ets, epos⟩ := e
    rw [ofInserts_concat]
    exact (allEntries_insertPos _ _ _).trans
      ((ih.cons _).trans (List.perm_append_singleton _ l).symm)

theorem filter_fst_map_pair (t : Timestamp) (ps : List Nat) (p : Timestamp → Bool) :
    (ps.map (fun pos => (t, pos))).filter (fun e => p e.1)
      = if p t then ps.map (fun pos => (t, pos)) else [] := by
  induction ps with
  | nil => simp
  | cons a as ih =>
    simp only [List.map_cons, List.filter_cons]
    by_cases hp : p t
    · simp only [hp, if_pos] at ih ⊢
      rw [ih]
    · simp only [hp, Bool.false_eq_true, if_neg, not_false_iff] at ih ⊢
      rw [ih]

theorem flatten_filter_buckets (idx : List (Timestamp × List Nat)) (p : Timestamp → Bool) :
    ((idx.filter (fun e => p e.1)).map Prod.snd).flatten
      = ((allEntries idx).filter (fun e => p e.1)).map Prod.snd := by
  induction idx with
  | nil => simp [allEntries]
  | cons e rest ih =>
    obtain ⟨t, ps⟩ := e
    rw [allEntries_cons, List.filter_append, List.map_append, filter_fst_map_pair,
      List.filter_cons]
    by_cases hp : p t
    · simp only [hp, if_pos, List.map_cons, List.flatten_cons, List.map_map]
      rw [ih]
      simp [Function.comp]
    · simp only [hp, Bool.false_eq_true, if_neg, not_false_iff, List.map_nil,
        List.nil_append]
      exact ih

/-- `get_range` equals the sorted positions of all stored entries whose
timestamp lies in the window. -/
theorem getRange_eq_sorted_entries (ti : TimeIndex) (lo hi : Timestamp) :
    ti.getRange lo hi
      = sortNat (((allEntries ti.index).filter
          (fun e => decide (lo ≤ e.1) && decide (e.1 ≤ hi))).map Prod.snd) := by
  unfold TimeIndex.getRange
  simp only [Bool.decide_and]
  exact congrArg sortNat
    (flatten_filter_buckets ti.index (fun t => decide (lo ≤ t) && decide (t ≤ hi)))

theorem sortNat_perm (l : List Nat) : (sortNat l).Perm l :=
  List.perm_insertionSort _ l

theorem sortNat_sorted (l : List Nat) : (sortNat l).Sorted (· ≤ ·) :=
  List.sorted_insertionSort _ l

theorem sortNat_congr_perm {l l' : List Nat} (h : l.Perm l') : sortNat l = sortNat l' :=
  List.eq_of_perm_of_sorted ((sortNat_perm l).trans (h.trans (sortNat_perm l').symm))
    (sortNat_sorted l) (sortNat_sorted l')

theorem sorted_lt_of_le_nodup {l : List Nat} (h : l.Sorted (· ≤ ·)) (hn : l.Nodup) :
    l.Sorted (· < ·) :=
  (h.and hn).imp (fun hab => lt_of_le_of_ne hab.1 hab.2)

theorem sorted_lt_eq_of_mem_iff {l₁ l₂ : List Nat} (h₁ : l₁.Sorted (· < ·))
    (h₂ : l₂.Sorted (· < ·)) (hm : ∀ a, a ∈ l₁ ↔ a ∈ l₂) : l₁ = l₂ :=
  List.eq_of_perm_of_sorted ((List.perm_ext_iff_of_nodup h₁.nodup h₂.nodup).mpr hm)
    h₁.le_of_lt h₂.le_of_lt

theorem mem_intersectSorted_left {l₁ l₂ : List Nat} {a : Nat}
    (h : a ∈ intersectSorted l₁ l₂) : a ∈ l₁ := by
  induction l₁, l₂ using intersectSorted.induct with
  | case1 l₂ => simp [intersectSorted] at h
  | case2 x xs => simp [intersectSorted] at h
  | case3 xs y ys ih =>
    rw [intersectSorted, if_pos rfl] at h
    rcases List.mem_cons.mp h with h' | h'
    · simp [h']
    · exact List.mem_cons_of_mem _ (ih h')
  | case4 x xs y ys heq hlt ih =>
    rw [intersectSorted, if_neg heq, if_pos hlt] at h
    exact List.mem_cons_of_mem _ (ih h)
  | case5 x xs y ys heq hlt ih =>
    rw [intersectSorted, if_neg heq, if_neg hlt] at h
    exact ih h

theorem intersectSorted_eq_filter {l₁ l₂ : List Nat} (h₁ : l₁.Sorted (· < ·))
    (h₂ : l₂.Sorted (· ≤ ·)) :
    intersectSorted l₁ l₂ = l₁.filter (fun a => decide (a ∈ l₂)) := by
  induction l₁, l₂ using intersectSorted.induct with
  | case1 l₂ => simp [intersectSorted]
  | case2 x xs => simp [intersectSorted]
  | case3 xs y ys ih =>
    rw [intersectSorted, if_pos rfl]
    rw [ih (List.Sorted.of_cons h₁) (List.Sorted.of_cons h₂)]
    rw [List.filter_cons, if_pos (by simp)]
    congr 1
    apply List.filter_congr
    intro b hb
    have hyb : y < b := (List.sorted_cons.mp h₁).1 b hb
    apply decide_eq_decide.mpr
    rw [List.mem_cons]
    constructor
    · exact Or.inr
    · intro hc
      rcases hc with hby | h
      · omega
      · exact h
  | case4 x xs y ys heq hlt ih =>
    rw [intersectSorted, if_neg heq, if_pos hlt]
    rw [ih (List.Sorted.of_cons h₁) h₂]
    have hx : x ∉ y :: ys := by
      intro hmem
      rw [List.mem_cons] at hmem
      cases hmem with
      | inl hxy => omega
      | inr hmem' =>
        have := (List.sorted_cons.mp h₂).1 x hmem'
        omega
    rw [List.filter_cons, if_neg (by simpa using hx)]
  | case5 x xs y ys heq hlt ih =>
    rw [intersectSorted, if_neg heq, if_neg hlt]
    rw [ih h₁ (List.Sorted.of_cons h₂)]
    apply List.filter_congr
    intro b hb
    have hyb : y < b := by
      rw [List.mem_cons] at hb
      cases hb with
      | inl hbx =>
        omega
      | inr hmem' =>
        have := (List.sorted_cons.mp h₁).1 b hmem'
        omega
    apply decide_eq_decide.mpr
    rw [List.mem_cons]
    constructor
    · exact Or.inr
    · intro hc
      rcases hc with hby | h
      · omega
      · exact h


/-! ### Reachable `CombinedIndex` states -/

/-- Canonical `(timestamp, position)` entries of a sample list: position
`i` carries the `i`-th sample's timestamp. -/
def timeEntriesOf (samples : List DataPoint) : List (Timestamp × Nat) :=
  (List.range samples.length).map (fun i => ((samples.getD i default).timestamp, i))

theorem ofList_concat (samples : List DataPoint) (dp : DataPoint) :
    CombinedIndex.ofList (samples ++ [dp]) = (CombinedIndex.ofList samples).addPoint dp := by
  unfold CombinedIndex.ofList
  rw [List.foldl_append]
  rfl

theorem ofList_data (samples : List DataPoint) :
    (CombinedIndex.ofList samples).data_points = samples := by
  induction samples using List.reverseRecOn with
  | nil => rfl
  | append_singleton l dp ih =>
    rw [ofList_concat]
    unfold CombinedIndex.addPoint
    simp [ih]

theorem timeEntriesOf_concat (samples : List DataPoint) (dp : DataPoint) :
    timeEntriesOf (samples ++ [dp])
      = timeEntriesOf samples ++ [(dp.timestamp, samples.length)] := by
  unfold timeEntriesOf
  rw [List.length_append, List.length_singleton, List.range_succ, List.map_append]
  congr 1
  · apply List.map_congr_left
    intro i hi
    rw [List.mem_range] at hi
    rw [List.getD_append _ _ _ _ hi]
  · simp

theorem ofList_time_index (samples : List DataPoint) :
    (CombinedIndex.ofList samples).time_index = TimeIndex.ofInserts (timeEntriesOf samples) := by
  induction samples using List.reverseRecOn with
  | nil => rfl
  | append_singleton l dp ih =>
    rw [ofList_concat, timeEntriesOf_concat, ofInserts_concat]
    unfold CombinedIndex.addPoint TimeIndex.addPoint
    rw [ofList_data]
    simp [ih, TimeIndex.addPoint]

theorem timeEntries_perm (samples : List DataPoint) :
    (allEntries (CombinedIndex.ofList samples).time_index.index).Perm (timeEntriesOf samples) := by
  rw [ofList_time_index]
  exact allEntries_ofInserts _

theorem mem_timeEntriesOf {samples : List DataPoint} {ts : Timestamp} {p : Nat} :
    (ts, p) ∈ timeEntriesOf samples
      ↔ p < samples.length ∧ (samples.getD p default).timestamp = ts := by
  unfold timeEntriesOf
  rw [List.mem_map]
  constructor
  · rintro ⟨i, hi, heq⟩
    rw [List.mem_range] at hi
    rw [Prod.mk.injEq] at heq
    obtain ⟨h1, h2⟩ := heq
    subst h2
    exact ⟨hi, h1⟩
  · rintro ⟨hp, hts⟩
    exact ⟨p, List.mem_range.mpr hp, by rw [hts]⟩

theorem snd_timeEntriesOf (samples : List DataPoint) :
    (timeEntriesOf samples).map Prod.snd = List.range samples.length := by
  unfold timeEntriesOf
  rw [List.map_map]
  exact List.map_id _

theorem timePositions_eq (samples : List DataPoint) (lo hi : Timestamp) :
    (CombinedIndex.ofList samples).timePositions lo hi
      = sortNat (((timeEntriesOf samples).filter
          (fun e => decide (lo ≤ e.1) && decide (e.1 ≤ hi))).map Prod.snd) := by
  unfold CombinedIndex.timePositions
  rw [getRange_eq_sorted_entries]
  exact sortNat_congr_perm (((timeEntries_perm samples).filter _).map _)

theorem timePositions_nodup (samples : List DataPoint) (lo hi : Timestamp) :
    ((CombinedIndex.ofList samples).timePositions lo hi).Nodup := by
  rw [timePositions_eq]
  apply (sortNat_perm _).nodup_iff.mpr
  apply List.Nodup.sublist (List.Sublist.map _ (List.filter_sublist _))
  rw [snd_timeEntriesOf]
  exact List.nodup_range _

theorem mem_timePositions {samples : List DataPoint} {lo hi : Timestamp} {p : Nat} :
    p ∈ (CombinedIndex.ofList samples).timePositions lo hi
      ↔ p < samples.length ∧ lo ≤ (samples.getD p default).timestamp
          ∧ (samples.getD p default).timestamp ≤ hi := by
  rw [timePositions_eq, (sortNat_perm _).mem_iff, List.mem_map]
  constructor
  · rintro ⟨e, he, hsnd⟩
    rw [List.mem_filter] at he
    obtain ⟨hmem, hcond⟩ := he
    obtain ⟨ts', p'⟩ := e
    cases hsnd
    rw [mem_timeEntriesOf] at hmem
    obtain ⟨hlt, hts⟩ := hmem
    subst hts
    rw [Bool.and_eq_true, decide_eq_true_eq, decide_eq_true_eq] at hcond
    exact ⟨hlt, hcond.1, hcond.2⟩
  · rintro ⟨hp, h1, h2⟩
    refine ⟨((samples.getD p default).timestamp, p), ?_, rfl⟩
    rw [List.mem_filter]
    refine ⟨mem_timeEntriesOf.mpr ⟨hp, rfl⟩, ?_⟩
    rw [Bool.and_eq_true, decide_eq_true_eq, decide_eq_true_eq]
    exact ⟨h1, h2⟩

/-- C6: `query_combined` returns exactly the samples whose positions lie in
the intersection of the `query_time_range` position set and the
`query_tags` position set, in ascending position order — for the AND flag
and the OR flag alike (the flag only enters through the tag position set). -/
theorem C6_query_combined_intersection (samples : List DataPoint) (lo hi : Timestamp)
    (tags : List (String × String)) (useAnd : Bool) :
    (CombinedIndex.ofList samples).queryCombined lo hi tags useAnd
      = derefAll (CombinedIndex.ofList samples).data_points
          ((List.range samples.length).filter (fun p =>
            decide (p ∈ (CombinedIndex.ofList samples).timePositions lo hi) &&
            decide (p ∈ (CombinedIndex.ofList samples).tagPositions tags useAnd))) := by
  unfold CombinedIndex.queryCombined CombinedIndex.queryCombinedPositions
  congr 1
  have hstNodup : (sortNat ((CombinedIndex.ofList samples).timePositions lo hi)).Nodup :=
    (sortNat_perm _).nodup_iff.mpr (timePositions_nodup samples lo hi)
  have hstLt : (sortNat ((CombinedIndex.ofList samples).timePositions lo hi)).Sorted (· < ·) :=
    sorted_lt_of_le_nodup (sortNat_sorted _) hstNodup
  rw [intersectSorted_eq_filter hstLt (sortNat_sorted _)]
  apply sorted_lt_eq_of_mem_iff
  · exact hstLt.filter _
  · exact sorted_lt_of_le_nodup
      ((List.Sorted.le_of_lt (List.pairwise_lt_range _)).filter _)
      (((List.nodup_range _).filter _))
  · intro a
    have m1 : a ∈ sortNat ((CombinedIndex.ofList samples).timePositions lo hi)
        ↔ a ∈ (CombinedIndex.ofList samples).timePositions lo hi :=
      (sortNat_perm _).mem_iff
    have m2 : a ∈ sortNat ((CombinedIndex.ofList samples).tagPositions tags useAnd)
        ↔ a ∈ (CombinedIndex.ofList samples).tagPositions tags useAnd :=
      (sortNat_perm _).mem_iff
    simp only [List.mem_filter, m1, m2, List.mem_range, Bool.and_eq_true, decide_eq_true_eq]
    constructor
    · rintro ⟨h1, h2⟩
      exact ⟨(mem_timePositions.mp h1).1, h1, h2⟩
    · rintro ⟨-, h1, h2⟩
      exact ⟨h1, h2⟩

/-- C7 (amended): `get_range` on a time index built by any insertion
sequence returns exactly the positions whose inserted timestamp lies in
`[lo, hi]`, sorted ascending by position value.  (Within one timestamp
this ascending position order coincides with insertion order only when
positions were inserted in increasing order, as `CombinedIndex` does —
the counterexample shows insertion order is not preserved in general.) -/
theorem C7_time_index_range (l : List (Timestamp × Nat)) (lo hi : Timestamp)
    (hlh : lo ≤ hi) :
    (TimeIndex.ofInserts l).getRange lo hi
      = sortNat ((l.filter (fun e => decide (lo ≤ e.1) && decide (e.1 ≤ hi))).map Prod.snd) ∧
    ((TimeIndex.ofInserts l).getRange lo hi).Sorted (· ≤ ·) := by
  constructor
  · rw [getRange_eq_sorted_entries]
    exact sortNat_congr_perm (((allEntries_ofInserts l).filter _).map _)
  · rw [getRange_eq_sorted_entries]
    exact sortNat_sorted _

/-- Witness for `C7_time_index_range` on the insertions of the repository's
`test_time_index_basic`. -/
theorem C7_time_index_range_witness :
    (TimeIndex.ofInserts [(1000, 0), (2000, 1), (3000, 2), (2000, 3)]).getRange 1500 2500
      = sortNat ((([(1000, 0), (2000, 1), (3000, 2), (2000, 3)]
          : List (Timestamp × Nat)).filter
            (fun e => decide ((1500 : Int) ≤ e.1) && decide (e.1 ≤ (2500 : Int)))).map Prod.snd) ∧
    ((TimeIndex.ofInserts [(1000, 0), (2000, 1), (3000, 2), (2000, 3)]).getRange
        1500 2500).Sorted (· ≤ ·) :=
  C7_time_index_range [(1000, 0), (2000, 1), (3000, 2), (2000, 3)] 1500 2500 (by decide)

/-- C7 as stated is false: after inserting position 5 then position 2 at
timestamp 0, `get_range(0,0)` returns `[2, 5]` (ascending by position),
not the insertion order `[5, 2]` — the "insertion order within one
timestamp" clause contradicts the position sort. -/
theorem C7_counterexample :
    (TimeIndex.ofInserts [(0, 5), (0, 2)]).getRange 0 0 = [2, 5] ∧
    ([2, 5] : List Nat) ≠ [5, 2] := by
  constructor
  · decide
  · decide


/-! ### Position bounds (C10) -/

/-- Every position stored across all buckets of a tag index. -/
def tagBucketPositions (tix : TagIndex) : List Nat :=
  tix.index.flatMap (fun kv => kv.2.flatMap Prod.snd)

theorem mem_lookup_assoc {β : Type} {k : String} {v : β} {l : List (String × β)}
    (h : List.lookup k l = some v) : (k, v) ∈ l := by
  induction l with
  | nil => simp [List.lookup] at h
  | cons e rest ih =>
    rw [List.lookup] at h
    by_cases hk : k == e.1
    · simp only [hk, if_pos] at h
      obtain ⟨k', v'⟩ := e
      have hke : k = k' := beq_iff_eq.mp hk
      rw [Option.some.injEq] at h
      rw [List.mem_cons]
      left
      rw [Prod.mk.injEq]
      exact ⟨hke, h.symm⟩
    · simp only [hk, Bool.false_eq_true, if_neg, not_false_iff] at h
      exact List.mem_cons_of_mem _ (ih h)

theorem mem_inner_update {vm : List (String × List Nat)} {v : String} {pos x : Nat}
    (h : x ∈ (assocUpdate vm v [] (fun ps => ps ++ [pos])).flatMap Prod.snd) :
    x ∈ vm.flatMap Prod.snd ∨ x = pos := by
  induction vm with
  | nil =>
    simp [assocUpdate] at h
    right
    exact h
  | cons e rest ih =>
    rw [assocUpdate] at h
    by_cases hv : v = e.1
    · rw [if_pos hv] at h
      simp only [List.flatMap_cons, List.mem_append, List.mem_singleton] at h ⊢
      rcases h with (h | h) | h
      · exact Or.inl (Or.inl h)
      · exact Or.inr h
      · exact Or.inl (Or.inr h)
    · rw [if_neg hv] at h
      simp only [List.flatMap_cons, List.mem_append] at h ⊢
      rcases h with h | h
      · exact Or.inl (Or.inl h)
      · rcases ih h with h' | h'
        · exact Or.inl (Or.inr h')
        · exact Or.inr h'

theorem mem_outer_update {ix : List (String × List (String × List Nat))}
    {k v : String} {pos x : Nat}
    (h : x ∈ (assocUpdate ix k []
        (fun vm => assocUpdate vm v [] (fun ps => ps ++ [pos]))).flatMap
        (fun kv => kv.2.flatMap Prod.snd)) :
    x ∈ ix.flatMap (fun kv => kv.2.flatMap Prod.snd) ∨ x = pos := by
  induction ix with
  | nil =>
    right
    simp only [assocUpdate, List.flatMap_cons, List.flatMap_nil, List.append_nil] at h
    simpa using h
  | cons e rest ih =>
    rw [assocUpdate] at h
    by_cases hk : k = e.1
    · rw [if_pos hk] at h
      simp only [List.flatMap_cons, List.mem_append] at h ⊢
      rcases h with h | h
      · rcases mem_inner_update h with h' | h'
        · exact Or.inl (Or.inl h')
        · exact Or.inr h'
      · exact Or.inl (Or.inr h)
    · rw [if_neg hk] at h
      simp only [List.flatMap_cons, List.mem_append] at h ⊢
      rcases h with h | h
      · exact Or.inl (Or.inl h)
      · rcases ih h with h' | h'
        · exact Or.inl (Or.inr h')
        · exact Or.inr h'

theorem mem_tags_fold {tags : List (String × String)}
    {ix : List (String × List (String × List Nat))} {pos x : Nat}
    (h : x ∈ (tags.foldl
        (fun ix kv => assocUpdate ix kv.1 []
          (fun vm => assocUpdate vm kv.2 [] (fun ps => ps ++ [pos]))) ix).flatMap
        (fun kv => kv.2.flatMap Prod.snd)) :
    x ∈ ix.flatMap (fun kv => kv.2.flatMap Prod.snd) ∨ x = pos := by
  induction tags generalizing ix with
  | nil => exact Or.inl h
  | cons kv rest ih =>
    rw [List.foldl_cons] at h
    rcases ih h with h' | h'
    · exact mem_outer_update h'
    · exact Or.inr h'

theorem mem_tagBucketPositions_addPoint {tix : TagIndex} {pos : Nat}
    {tags : List (String × String)} {x : Nat}
    (h : x ∈ tagBucketPositions (tix.addPoint pos tags)) :
    x ∈ tagBucketPositions tix ∨ x = pos := by
  unfold tagBucketPositions at h ⊢
  unfold TagIndex.addPoint at h
  exact mem_tags_fold h

theorem ofList_tagBucketPositions_lt (samples : List DataPoint) :
    ∀ p ∈ tagBucketPositions (CombinedIndex.ofList samples).tag_index,
      p < samples.length := by
  induction samples using List.reverseRecOn with
  | nil =>
    intro p hp
    simp [CombinedIndex.ofList, CombinedIndex.empty, TagIndex.empty,
      tagBucketPositions] at hp
  | append_singleton l dp ih =>
    intro p hp
    rw [ofList_concat] at hp
    unfold CombinedIndex.addPoint at hp
    rw [List.length_append, List.length_singleton]
    cases htags : dp.tags with
    | none =>
      rw [htags] at hp
      have := ih p hp
      omega
    | some tags =>
      rw [htags] at hp
      rcases mem_tagBucketPositions_addPoint hp with h' | h'
      · have := ih p h'
        omega
      · rw [ofList_data] at h'
        omega

theorem getByTag_subset {tix : TagIndex} {k v : String} {ps : List Nat}
    (h : tix.getByTag k v = some ps) : ∀ x ∈ ps, x ∈ tagBucketPositions tix := by
  unfold TagIndex.getByTag at h
  cases hl : List.lookup k tix.index with
  | none => rw [hl] at h; exact absurd h (by simp)
  | some vm =>
    rw [hl] at h
    intro x hx
    unfold tagBucketPositions
    rw [List.mem_flatMap]
    refine ⟨(k, vm), mem_lookup_assoc hl, ?_⟩
    rw [List.mem_flatMap]
    exact ⟨(v, ps), mem_lookup_assoc h, hx⟩

theorem andGo_subset {tix : TagIndex} (tags : List (String × String))
    (res : Option (List Nat))
    (hres : ∀ cur, res = some cur → ∀ x ∈ cur, x ∈ tagBucketPositions tix) :
    ∀ x ∈ andGo tix tags res, x ∈ tagBucketPositions tix := by
  induction tags generalizing res with
  | nil =>
    intro x hx
    rw [andGo] at hx
    cases res with
    | none => simp at hx
    | some cur => exact hres cur rfl x hx
  | cons kv rest ih =>
    intro x hx
    rw [andGo] at hx
    cases hbt : tix.getByTag kv.1 kv.2 with
    | none =>
      rw [hbt] at hx
      simp at hx
    | some positions =>
      rw [hbt] at hx
      cases res with
      | none =>
        refine ih (some positions) ?_ x hx
        rintro cur hcur y hy
        rw [Option.some.injEq] at hcur
        subst hcur
        exact getByTag_subset hbt y hy
      | some current =>
        refine ih _ ?_ x hx
        rintro cur hcur y hy
        rw [Option.some.injEq] at hcur
        subst hcur
        have hy1 : y ∈ sortNat current := mem_intersectSorted_left hy
        have hy2 : y ∈ current := (sortNat_perm _).mem_iff.mp hy1
        exact hres current rfl y hy2

theorem mem_dedupAdj {l : List Nat} {x : Nat} (h : x ∈ dedupAdj l) : x ∈ l := by
  induction l with
  | nil => simpa [dedupAdj] using h
  | cons a rest ih =>
    cases rest with
    | nil => simpa [dedupAdj] using h
    | cons b rest' =>
      rw [dedupAdj] at h
      by_cases hab : a = b
      · rw [if_pos hab] at h
        exact List.mem_cons_of_mem _ (ih h)
      · rw [if_neg hab] at h
        rcases List.mem_cons.mp h with h' | h'
        · simp [h']
        · exact List.mem_cons_of_mem _ (ih h')

theorem tagPositions_subset (ci : CombinedIndex) (tags : List (String × String))
    (useAnd : Bool) :
    ∀ x ∈ ci.tagPositions tags useAnd, x ∈ tagBucketPositions ci.tag_index := by
  intro x hx
  unfold CombinedIndex.tagPositions at hx
  cases useAnd with
  | true =>
    rw [if_pos rfl] at hx
    unfold TagIndex.getByTagsAnd at hx
    by_cases htags : tags = []
    · rw [if_pos htags] at hx
      simp at hx
    · rw [if_neg htags] at hx
      exact andGo_subset tags none (by intro cur h; exact absurd h (by simp)) x hx
  | false =>
    simp only [Bool.false_eq_true, if_neg, not_false_iff] at hx
    unfold TagIndex.getByTagsOr at hx
    have hx1 := (sortNat_perm _).mem_iff.mp (mem_dedupAdj hx)
    rw [List.mem_flatMap] at hx1
    obtain ⟨kv, -, hxin⟩ := hx1
    cases hbt : (ci.tag_index.getByTag kv.1 kv.2) with
    | none => rw [hbt] at hxin; simp at hxin
    | some ps =>
      rw [hbt] at hxin
      exact getByTag_subset hbt x hxin

theorem collectBucketRev_mem {count : Nat} {acc ps : List Nat} {x : Nat}
    (h : x ∈ collectBucketRev count acc ps) : x ∈ acc ∨ x ∈ ps := by
  induction ps generalizing acc with
  | nil => exact Or.inl (by simpa [collectBucketRev] using h)
  | cons p rest ih =>
    rw [collectBucketRev] at h
    by_cases hf : acc.length ≥ count
    · rw [if_pos hf] at h
      exact Or.inl h
    · rw [if_neg hf] at h
      rcases ih h with h' | h'
      · rw [List.mem_append] at h'
        rcases h' with h'' | h''
        · exact Or.inl h''
        · right
          have hxp : x = p := List.mem_singleton.mp h''
          rw [hxp]
          exact List.mem_cons_self _ _
      · exact Or.inr (List.mem_cons_of_mem _ h')

theorem lastBeforeGo_mem {count : Nat} {acc : List Nat}
    {buckets : List (Timestamp × List Nat)} {x : Nat}
    (h : x ∈ lastBeforeGo count acc buckets) :
    x ∈ acc ∨ ∃ e ∈ buckets, x ∈ e.2 := by
  induction buckets generalizing acc with
  | nil => exact Or.inl (by simpa [lastBeforeGo] using h)
  | cons e rest ih =>
    obtain ⟨t, ps⟩ := e
    rw [lastBeforeGo] at h
    by_cases hf : (collectBucketRev count acc ps.reverse).length ≥ count
    · rw [if_pos hf] at h
      rcases collectBucketRev_mem h with h' | h'
      · exact Or.inl h'
      · right
        exact ⟨(t, ps), List.mem_cons_self _ _, by simpa using h'⟩
    · rw [if_neg hf] at h
      rcases ih h with h' | h'
      · rcases collectBucketRev_mem h' with h'' | h''
        · exact Or.inl h''
        · right
          exact ⟨(t, ps), List.mem_cons_self _ _, by simpa using h''⟩
      · obtain ⟨e', he', hxe⟩ := h'
        exact Or.inr ⟨e', List.mem_cons_of_mem _ he', hxe⟩

theorem getLastBefore_mem {ti : TimeIndex} {ts : Timestamp} {count : Nat} {x : Nat}
    (h : x ∈ ti.getLastBefore ts count) :
    ∃ t, (t, x) ∈ allEntries ti.index := by
  unfold TimeIndex.getLastBefore at h
  rw [List.mem_reverse] at h
  rcases lastBeforeGo_mem h with h' | h'
  · simp at h'
  · obtain ⟨e, he, hxe⟩ := h'
    rw [List.mem_reverse, List.mem_filter] at he
    refine ⟨e.1, ?_⟩
    unfold allEntries
    rw [List.mem_flatMap]
    exact ⟨e, he.1, List.mem_map_of_mem _ hxe⟩

theorem mem_allEntries_ofList_lt {samples : List DataPoint} {t : Timestamp} {p : Nat}
    (h : (t, p) ∈ allEntries (CombinedIndex.ofList samples).time_index.index) :
    p < samples.length := by
  have := (timeEntries_perm samples).mem_iff.mp h
  exact (mem_timeEntriesOf.mp this).1

/-- C10: in every `CombinedIndex` reachable by `add_point`/`add_points`,
all positions stored in the time index and in the tag index are strictly
below the length of `data_points`, and so are all positions the four query
paths dereference — the `&data_points[pos]` indexing can never go out of
bounds or panic. -/
theorem C10_positions_in_bounds (samples : List DataPoint) :
    (∀ e ∈ allEntries (CombinedIndex.ofList samples).time_index.index,
      e.2 < (CombinedIndex.ofList samples).data_points.length) ∧
    (∀ p ∈ tagBucketPositions (CombinedIndex.ofList samples).tag_index,
      p < (CombinedIndex.ofList samples).data_points.length) ∧
    (∀ lo hi : Timestamp, ∀ p ∈ (CombinedIndex.ofList samples).timePositions lo hi,
      p < (CombinedIndex.ofList samples).data_points.length) ∧
    (∀ (tags : List (String × String)) (useAnd : Bool),
      ∀ p ∈ (CombinedIndex.ofList samples).tagPositions tags useAnd,
        p < (CombinedIndex.ofList samples).data_points.length) ∧
    (∀ (lo hi : Timestamp) (tags : List (String × String)) (useAnd : Bool),
      ∀ p ∈ (CombinedIndex.ofList samples).queryCombinedPositions lo hi tags useAnd,
        p < (CombinedIndex.ofList samples).data_points.length) ∧
    (∀ (ts : Timestamp) (count : Nat),
      ∀ p ∈ (CombinedIndex.ofList samples).time_index.getLastBefore ts count,
        p < (CombinedIndex.ofList samples).data_points.length) := by
  rw [ofList_data]
  refine ⟨?_, ?_, ?_, ?_, ?_, ?_⟩
  · intro e he
    obtain ⟨t, p⟩ := e
    exact mem_allEntries_ofList_lt he
  · exact ofList_tagBucketPositions_lt samples
  · intro lo hi p hp
    exact (mem_timePositions.mp hp).1
  · intro tags useAnd p hp
    exact ofList_tagBucketPositions_lt samples p
      (tagPositions_subset (CombinedIndex.ofList samples) tags useAnd p hp)
  · intro lo hi tags useAnd p hp
    unfold CombinedIndex.queryCombinedPositions at hp
    have h1 : p ∈ sortNat ((CombinedIndex.ofList samples).timePositions lo hi) :=
      mem_intersectSorted_left hp
    have h2 := (sortNat_perm _).mem_iff.mp h1
    exact (mem_timePositions.mp h2).1
  · intro ts count p hp
    obtain ⟨t, ht⟩ := getLastBefore_mem hp
    exact mem_allEntries_ofList_lt ht


/-! ## Query executor: grouped aggregation (query.rs)

`execute_grouped_aggregation` buckets the candidate samples into a
`HashMap<i64, Vec<&DataPoint>>` and sorts the per-bucket results by start
timestamp; the map becomes an association list (iteration order is
irrelevant after the sort, and per-bucket vectors preserve candidate
order).  `calculate_aggregation` dispatches to float arithmetic for
Min/Max/Sum/Average, so it enters as the parameter `calcAgg`; the `Count`
arm is modeled concretely as `calcCount`. -/

/-- `AggregationResult` from types.rs (the `aggregation` tag field plays no
role in the claims and is omitted). -/
structure AggregationResult where
  value : Option Value
  count : Nat
  start_timestamp : Timestamp
  end_timestamp : Timestamp
  deriving DecidableEq, Repr

/-- `results.sort_by_key(|r| r.start_timestamp)` comparison. -/
def aggLe (a b : AggregationResult) : Prop := a.start_timestamp ≤ b.start_timestamp

instance : DecidableRel aggLe :=
  fun a b => (inferInstance : Decidable (a.start_timestamp ≤ b.start_timestamp))

instance : IsTotal AggregationResult aggLe := ⟨fun a b => Int.le_total _ _⟩

instance : IsTrans AggregationResult aggLe := ⟨fun _ _ _ => Int.le_trans⟩

/-- `results.sort_by_key(|r| r.start_timestamp)` (a sort on the results;
keys are distinct so stability is irrelevant). -/
def sortByStart (l : List AggregationResult) : List AggregationResult :=
  List.insertionSort aggLe l

/-- The grouping loop of `execute_grouped_aggregation` (query.rs 215–220):
`bucket = data_point.timestamp / interval_nanos` with Rust `/` = truncated
division (`Int.tdiv`), pushed into the bucket's vector in candidate
order. -/
def buildGroups (intervalNanos : Int) :
    List DataPoint → List (Int × List DataPoint) → List (Int × List DataPoint)
  | [], groups => groups
  | dp :: rest, groups =>
    buildGroups intervalNanos rest
      (assocUpdate groups (Int.tdiv dp.timestamp intervalNanos) [] (fun g => g ++ [dp]))

/-- The `Count` arm of `QueryBuilder::calculate_aggregation` (query.rs
251–256): `None` on an empty group, else `Integer(len)`. -/
def calcCount (dataPoints : List DataPoint) : Option Value :=
  if dataPoints = [] then none else some (.Integer dataPoints.length)

/-- `QueryBuilder::execute_grouped_aggregation` (query.rs 204–243).  The
window bounds `bucket * interval_nanos` and `(bucket + 1) * interval_nanos
- 1` (query.rs 225–226) are i64 arithmetic, so every operation wraps
(release mode). -/
def executeGroupedAggregation (calcAgg : List DataPoint → Option Value)
    (dataPoints : List DataPoint) (intervalNanos : Int) : List AggregationResult :=
  if dataPoints = [] then []
  else
    sortByStart ((buildGroups intervalNanos dataPoints []).map (fun g =>
      { value := calcAgg g.2
        count := g.2.length
        start_timestamp := toI64 (g.1 * intervalNanos)
        end_timestamp := toI64 (toI64 (toI64 (g.1 + 1) * intervalNanos) - 1) }))

/-- `DecidableEq`-based association lookup matching `assocUpdate`. -/
def lookupA {α β : Type} [DecidableEq α] : List (α × β) → α → Option β
  | [], _ => none
  | (k', v) :: rest, k => if k = k' then some v else lookupA rest k

theorem lookupA_assocUpdate_self {α β : Type} [DecidableEq α]
    (l : List (α × β)) (k : α) (dflt : β) (f : β → β) :
    lookupA (assocUpdate l k dflt f) k = some (f ((lookupA l k).getD dflt)) := by
  induction l with
  | nil => simp [assocUpdate, lookupA]
  | cons e rest ih =>
    obtain ⟨k', v⟩ := e
    rw [assocUpdate]
    by_cases hk : k = k'
    · rw [if_pos hk, lookupA, if_pos hk, lookupA, if_pos hk]
      simp
    · rw [if_neg hk, lookupA, if_neg hk, lookupA, if_neg hk]
      exact ih

theorem lookupA_assocUpdate_other {α β : Type} [DecidableEq α]
    (l : List (α × β)) (k k' : α) (dflt : β) (f : β → β) (hne : k' ≠ k) :
    lookupA (assocUpdate l k dflt f) k' = lookupA l k' := by
  induction l with
  | nil => simp [assocUpdate, lookupA, hne]
  | cons e rest ih =>
    obtain ⟨k0, v⟩ := e
    rw [assocUpdate]
    by_cases hk : k = k0
    · subst hk
      rw [if_pos rfl, lookupA, lookupA]
      rw [if_neg hne, if_neg hne]
    · rw [if_neg hk, lookupA, lookupA]
      by_cases hk' : k' = k0
      · rw [if_pos hk', if_pos hk']
      · rw [if_neg hk', if_neg hk']
        exact ih

theorem mem_keys_assocUpdate {α β : Type} [DecidableEq α]
    {l : List (α × β)} {k x : α} {dflt : β} {f : β → β}
    (h : x ∈ (assocUpdate l k dflt f).map Prod.fst) :
    x ∈ l.map Prod.fst ∨ x = k := by
  induction l with
  | nil =>
    simp [assocUpdate] at h
    exact Or.inr h
  | cons e rest ih =>
    obtain ⟨k0, v⟩ := e
    rw [assocUpdate] at h
    by_cases hk : k = k0
    · rw [if_pos hk] at h
      exact Or.inl h
    · rw [if_neg hk] at h
      rw [List.map_cons, List.mem_cons] at h
      rcases h with h | h
      · exact Or.inl (by simp [h])
      · rcases ih h with h' | h'
        · exact Or.inl (List.mem_cons_of_mem _ h')
        · exact Or.inr h'

theorem nodup_keys_assocUpdate {α β : Type} [DecidableEq α]
    {l : List (α × β)} {k : α} {dflt : β} {f : β → β}
    (h : (l.map Prod.fst).Nodup) : ((assocUpdate l k dflt f).map Prod.fst).Nodup := by
  induction l with
  | nil => simp [assocUpdate]
  | cons e rest ih =>
    obtain ⟨k0, v⟩ := e
    rw [assocUpdate]
    by_cases hk : k = k0
    · rw [if_pos hk]
      exact h
    · rw [if_neg hk]
      rw [List.map_cons, List.nodup_cons] at h ⊢
      refine ⟨?_, ih h.2⟩
      intro hmem
      rcases mem_keys_assocUpdate hmem with h' | h'
      · exact h.1 h'
      · exact hk h'.symm

theorem lookupA_eq_none_iff {α β : Type} [DecidableEq α]
    (l : List (α × β)) (k : α) : lookupA l k = none ↔ k ∉ l.map Prod.fst := by
  induction l with
  | nil => simp [lookupA]
  | cons e rest ih =>
    obtain ⟨k0, v⟩ := e
    rw [lookupA]
    by_cases hk : k = k0
    · rw [if_pos hk]
      simp [hk]
    · rw [if_neg hk]
      simp [hk, ih]

theorem mem_iff_lookupA {α β : Type} [DecidableEq α]
    {l : List (α × β)} (hnd : (l.map Prod.fst).Nodup) (k : α) (v : β) :
    (k, v) ∈ l ↔ lookupA l k = some v := by
  induction l with
  | nil => simp [lookupA]
  | cons e rest ih =>
    obtain ⟨k0, v0⟩ := e
    rw [List.map_cons, List.nodup_cons] at hnd
    rw [List.mem_cons, lookupA]
    by_cases hk : k = k0
    · subst hk
      rw [if_pos rfl]
      constructor
      · rintro (h | h)
        · rw [Prod.mk.injEq] at h
          rw [h.2]
        · exact absurd (List.mem_map_of_mem Prod.fst h) (by simpa using hnd.1)
      · intro h
        rw [Option.some.injEq] at h
        exact Or.inl (by rw [h])
    · rw [if_neg hk]
      rw [ih hnd.2]
      constructor
      · rintro (h | h)
        · rw [Prod.mk.injEq] at h
          exact absurd h.1 hk
        · exact h
      · exact Or.inr

/-- The invariant carried through the grouping loop: bucket keys are
distinct and each bucket holds exactly the processed samples of that
bucket, in order; absent buckets have no matching samples. -/
def GroupsInv (intervalNanos : Int) (processed : List DataPoint)
    (g : List (Int × List DataPoint)) : Prop :=
  (g.map Prod.fst).Nodup ∧
  ∀ b : Int,
    lookupA g b =
      (if processed.filter (fun dp => decide (Int.tdiv dp.timestamp intervalNanos = b)) = []
       then none
       else some (processed.filter (fun dp => decide (Int.tdiv dp.timestamp intervalNanos = b))))

theorem buildGroups_inv (intervalNanos : Int) (rest : List DataPoint) :
    ∀ (processed : List DataPoint) (g : List (Int × List DataPoint)),
    GroupsInv intervalNanos processed g →
    GroupsInv intervalNanos (processed ++ rest) (buildGroups intervalNanos rest g) := by
  induction rest with
  | nil =>
    intro processed g h
    rw [buildGroups, List.append_nil]
    exact h
  | cons dp rest' ih =>
    intro processed g h
    rw [buildGroups]
    have hstep : GroupsInv intervalNanos (processed ++ [dp])
        (assocUpdate g (Int.tdiv dp.timestamp intervalNanos) [] (fun gr => gr ++ [dp])) := by
      obtain ⟨hnd, hlk⟩ := h
      refine ⟨nodup_keys_assocUpdate hnd, ?_⟩
      intro b
      by_cases hb : b = Int.tdiv dp.timestamp intervalNanos
      · subst hb
        rw [lookupA_assocUpdate_self, List.filter_append]
        have hdp : List.filter (fun dp' => decide (Int.tdiv dp'.timestamp intervalNanos
            = Int.tdiv dp.timestamp intervalNanos)) [dp] = [dp] := by
          simp [List.filter_cons]
        rw [hdp, hlk]
        by_cases hemp : List.filter (fun dp' => decide (Int.tdiv dp'.timestamp intervalNanos
            = Int.tdiv dp.timestamp intervalNanos)) processed = []
        · rw [if_pos hemp, hemp]
          simp
        · rw [if_neg hemp]
          simp
      · rw [lookupA_assocUpdate_other _ _ _ _ _ hb, List.filter_append]
        have hdp : List.filter (fun dp' => decide (Int.tdiv dp'.timestamp intervalNanos = b))
            [dp] = [] := by
          simp [List.filter_cons]
          intro hc
          exact absurd hc.symm hb
        rw [hdp, List.append_nil]
        exact hlk b
    have := ih (processed ++ [dp]) _ hstep
    rwa [List.append_assoc, List.singleton_append] at this

theorem sorted_lt_of_le_nodup_int {l : List Int} (h : l.Sorted (· ≤ ·)) (hn : l.Nodup) :
    l.Sorted (· < ·) :=
  (h.and hn).imp (fun hab => lt_of_le_of_ne hab.1 hab.2)

theorem toI64_eq_self (x : Int) (hlo : -(2 ^ 63) ≤ x) (hhi : x < 2 ^ 63) :
    toI64 x = x := by
  unfold toI64
  omega

/-- C8 (amended): grouped aggregation buckets each candidate at
`timestamp / I` with Rust truncating division (`Int.tdiv`, which equals
floor division only for non-negative operands); provided every occupied
bucket's window arithmetic stays inside i64 range (otherwise it wraps, see
the counterexample), it emits one result per non-empty bucket with window
`[b·I, (b+1)·I − 1]`, count and value computed from that bucket's
candidates in order, omits empty buckets, and returns the results sorted
strictly ascending by window start. -/
theorem C8_grouped_aggregation (calcAgg : List DataPoint → Option Value)
    (cands : List DataPoint) (I : Int) (hI : 0 < I)
    (hrange : ∀ dp ∈ cands, -(2 ^ 63) ≤ Int.tdiv dp.timestamp I * I ∧
      (Int.tdiv dp.timestamp I + 1) * I < 2 ^ 63) :
    ((executeGroupedAggregation calcAgg cands I).map
        (fun r => r.start_timestamp)).Sorted (· < ·) ∧
    (∀ r ∈ executeGroupedAggregation calcAgg cands I, ∃ b : Int,
      r.start_timestamp = b * I ∧
      r.end_timestamp = (b + 1) * I - 1 ∧
      r.count = (cands.filter (fun dp => decide (Int.tdiv dp.timestamp I = b))).length ∧
      0 < r.count ∧
      r.value = calcAgg (cands.filter (fun dp => decide (Int.tdiv dp.timestamp I = b)))) ∧
    (∀ b : Int, cands.filter (fun dp => decide (Int.tdiv dp.timestamp I = b)) ≠ [] →
      ∃ r ∈ executeGroupedAggregation calcAgg cands I, r.start_timestamp = b * I) := by
  by_cases hempty : cands = []
  · subst hempty
    refine ⟨?_, ?_, ?_⟩
    · simp [executeGroupedAggregation]
    · intro r hr
      simp [executeGroupedAggregation] at hr
    · intro b hb
      simp at hb
  · have hG : GroupsInv I cands (buildGroups I cands []) := by
      have h0 : GroupsInv I [] ([] : List (Int × List DataPoint)) := by
        refine ⟨by simp, ?_⟩
        intro b
        simp [lookupA]
      have := buildGroups_inv I cands [] [] h0
      rwa [List.nil_append] at this
    obtain ⟨hnd, hlk⟩ := hG
    have hbucket0 : ∀ e ∈ buildGroups I cands [],
        e.2 = cands.filter (fun dp => decide (Int.tdiv dp.timestamp I = e.1)) ∧
        e.2 ≠ [] := by
      intro e he
      obtain ⟨b, v⟩ := e
      have := (mem_iff_lookupA hnd b v).mp he
      rw [hlk b] at this
      by_cases hemp : cands.filter (fun dp => decide (Int.tdiv dp.timestamp I = b)) = []
      · rw [if_pos hemp] at this
        exact absurd this (by simp)
      · rw [if_neg hemp] at this
        rw [Option.some.injEq] at this
        refine ⟨this.symm, ?_⟩
        show v ≠ []
        intro hv
        rw [hv] at this
        exact hemp this
    have hwrap : ∀ e ∈ buildGroups I cands [],
        toI64 (e.1 * I) = e.1 * I ∧
        toI64 (toI64 (toI64 (e.1 + 1) * I) - 1) = (e.1 + 1) * I - 1 := by
      intro e he
      obtain ⟨hfil, hne⟩ := hbucket0 e he
      have hne' : cands.filter (fun dp => decide (Int.tdiv dp.timestamp I = e.1)) ≠ [] := by
        rw [← hfil]
        exact hne
      obtain ⟨dp, hdp⟩ := List.exists_mem_of_ne_nil _ hne'
      obtain ⟨hdpc, hdpb⟩ := List.mem_filter.mp hdp
      have hbe : Int.tdiv dp.timestamp I = e.1 := by simpa using hdpb
      obtain ⟨hlo, hhi⟩ := hrange dp hdpc
      rw [hbe] at hlo hhi
      have h1 : toI64 (e.1 * I) = e.1 * I := toI64_eq_self _ hlo (by nlinarith)
      have hb1 : -(2 ^ 63) ≤ e.1 + 1 ∧ e.1 + 1 < 2 ^ 63 := by
        rcases le_or_lt (e.1 + 1) 0 with hc | hc
        · refine ⟨?_, by nlinarith⟩
          nlinarith [mul_nonneg (by linarith : (0 : Int) ≤ -1 - e.1)
            (by linarith : (0 : Int) ≤ I - 1)]
        · refine ⟨by nlinarith, ?_⟩
          nlinarith [mul_nonneg (by linarith : (0 : Int) ≤ e.1 + 1)
            (by linarith : (0 : Int) ≤ I - 1)]
      have h2 : toI64 (e.1 + 1) = e.1 + 1 := toI64_eq_self _ hb1.1 hb1.2
      have h3 : toI64 ((e.1 + 1) * I) = (e.1 + 1) * I :=
        toI64_eq_self _ (by nlinarith) hhi
      have h4 : toI64 ((e.1 + 1) * I - 1) = (e.1 + 1) * I - 1 :=
        toI64_eq_self _ (by nlinarith) (by nlinarith)
      rw [h2, h3, h4]
      exact ⟨h1, rfl⟩
    have hrw : executeGroupedAggregation calcAgg cands I
        = sortByStart ((buildGroups I cands []).map (fun g =>
            { value := calcAgg g.2
              count := g.2.length
              start_timestamp := g.1 * I
              end_timestamp := (g.1 + 1) * I - 1 })) := by
      unfold executeGroupedAggregation
      rw [if_neg hempty]
      have hmapeq : (buildGroups I cands []).map (fun g =>
          ({ value := calcAgg g.2
             count := g.2.length
             start_timestamp := toI64 (g.1 * I)
             end_timestamp := toI64 (toI64 (toI64 (g.1 + 1) * I) - 1) }
            : AggregationResult))
          = (buildGroups I cands []).map (fun g =>
          ({ value := calcAgg g.2
             count := g.2.length
             start_timestamp := g.1 * I
             end_timestamp := (g.1 + 1) * I - 1 } : AggregationResult)) := by
        apply List.map_congr_left
        intro e he
        obtain ⟨hw1, hw2⟩ := hwrap e he
        rw [hw1, hw2]
      rw [hmapeq]
    have hmem : ∀ r, r ∈ executeGroupedAggregation calcAgg cands I ↔
        ∃ e ∈ buildGroups I cands [], r =
          { value := calcAgg e.2
            count := e.2.length
            start_timestamp := e.1 * I
            end_timestamp := (e.1 + 1) * I - 1 } := by
      intro r
      rw [hrw]
      unfold sortByStart
      rw [(List.perm_insertionSort aggLe _).mem_iff, List.mem_map]
      constructor
      · rintro ⟨e, he, hr⟩
        exact ⟨e, he, hr.symm⟩
      · rintro ⟨e, he, hr⟩
        exact ⟨e, he, hr.symm⟩
    have hbucket := hbucket0
    refine ⟨?_, ?_, ?_⟩
    · have hsorted : (executeGroupedAggregation calcAgg cands I).Sorted aggLe := by
        rw [hrw]
        exact List.sorted_insertionSort aggLe _
      have hle : ((executeGroupedAggregation calcAgg cands I).map
          (fun r => r.start_timestamp)).Sorted (· ≤ ·) :=
        List.Pairwise.map _ (fun _ _ hab => hab) hsorted
      have hnodup : ((executeGroupedAggregation calcAgg cands I).map
          (fun r => r.start_timestamp)).Nodup := by
        rw [hrw]
        unfold sortByStart
        apply ((List.perm_insertionSort aggLe _).map
          (fun r => r.start_timestamp)).nodup_iff.mpr
        rw [List.map_map]
        have hcomp : ((fun r : AggregationResult => r.start_timestamp) ∘ (fun g :
            Int × List DataPoint =>
            ({ value := calcAgg g.2
               count := g.2.length
               start_timestamp := g.1 * I
               end_timestamp := (g.1 + 1) * I - 1 } : AggregationResult)))
            = (fun g : Int × List DataPoint => g.1 * I) := rfl
        rw [hcomp]
        have : (fun g : Int × List DataPoint => g.1 * I)
            = (fun b : Int => b * I) ∘ Prod.fst := rfl
        rw [this, ← List.map_map]
        apply List.Nodup.map ?_ hnd
        intro a b hab
        exact mul_right_cancel₀ (ne_of_gt hI) hab
      exact sorted_lt_of_le_nodup_int hle hnodup
    · intro r hr
      obtain ⟨e, he, hre⟩ := (hmem r).mp hr
      obtain ⟨hfil, hne⟩ := hbucket e he
      refine ⟨e.1, ?_, ?_, ?_, ?_, ?_⟩
      · rw [hre]
      · rw [hre]
      · rw [hre]
        simp only []
        rw [hfil]
      · rw [hre]
        simp only []
        rw [hfil]
        have := hne
        rw [hfil] at this
        cases hfl : cands.filter (fun dp => decide (Int.tdiv dp.timestamp I = e.1)) with
        | nil => exact absurd hfl this
        | cons a as => simp
      · rw [hre]
        simp only []
        rw [hfil]
    · intro b hb
      have hlkb : lookupA (buildGroups I cands []) b
          = some (cands.filter (fun dp => decide (Int.tdiv dp.timestamp I = b))) := by
        rw [hlk b, if_neg hb]
      have hmemb : (b, cands.filter (fun dp => decide (Int.tdiv dp.timestamp I = b)))
          ∈ buildGroups I cands [] := (mem_iff_lookupA hnd b _).mpr hlkb
      refine ⟨{ value := calcAgg (cands.filter (fun dp => decide (Int.tdiv dp.timestamp I = b)))
                count := (cands.filter (fun dp => decide (Int.tdiv dp.timestamp I = b))).length
                start_timestamp := b * I
                end_timestamp := (b + 1) * I - 1 }, ?_, rfl⟩
      exact (hmem _).mpr ⟨(b, cands.filter (fun dp => decide (Int.tdiv dp.timestamp I = b))),
        hmemb, rfl⟩

/-- Witness for `C8_grouped_aggregation` with the concrete `Count`
aggregation, interval 1000 and two samples in distinct buckets. -/
theorem C8_grouped_aggregation_witness :
    ((executeGroupedAggregation calcCount
        [⟨0, .Integer 0, none⟩, ⟨2500, .Integer 1, none⟩] 1000).map
        (fun r => r.start_timestamp)).Sorted (· < ·) ∧
    (∀ r ∈ executeGroupedAggregation calcCount
        [⟨0, .Integer 0, none⟩, ⟨2500, .Integer 1, none⟩] 1000, ∃ b : Int,
      r.start_timestamp = b * 1000 ∧
      r.end_timestamp = (b + 1) * 1000 - 1 ∧
      r.count = (([⟨0, .Integer 0, none⟩, ⟨2500, .Integer 1, none⟩]
          : List DataPoint).filter (fun dp => decide (Int.tdiv dp.timestamp 1000 = b))).length ∧
      0 < r.count ∧
      r.value = calcCount (([⟨0, .Integer 0, none⟩, ⟨2500, .Integer 1, none⟩]
          : List DataPoint).filter (fun dp => decide (Int.tdiv dp.timestamp 1000 = b)))) ∧
    (∀ b : Int, ([⟨0, .Integer 0, none⟩, ⟨2500, .Integer 1, none⟩]
        : List DataPoint).filter (fun dp => decide (Int.tdiv dp.timestamp 1000 = b)) ≠ [] →
      ∃ r ∈ executeGroupedAggregation calcCount
        [⟨0, .Integer 0, none⟩, ⟨2500, .Integer 1, none⟩] 1000,
        r.start_timestamp = b * 1000) :=
  C8_grouped_aggregation calcCount
    [⟨0, .Integer 0, none⟩, ⟨2500, .Integer 1, none⟩] 1000 (by decide) (by decide)

/-- C8 as stated is false for negative timestamps: the code buckets with
Rust `/` (truncation toward zero), so a sample at −500 with interval 1000
lands in bucket 0 with window `[0, 999]`, whereas the claimed floor
division puts it in bucket −1 with window start −1000.  Near the top of the
i64 range the window arithmetic also diverges from the claimed unbounded
formula: a sample at `i64::MAX` with interval 1000 gets the wrapped
end_timestamp −9223372036854775617 instead of `(b+1)·1000 − 1` =
9223372036854775999. -/
theorem C8_counterexample :
    ((executeGroupedAggregation calcCount [⟨-500, .Integer 0, none⟩] 1000).map
        (fun r => r.start_timestamp)) = [0] ∧
    Int.fdiv (-500) 1000 * 1000 = -1000 ∧ (0 : Int) ≠ -1000 ∧
    ((executeGroupedAggregation calcCount [⟨2 ^ 63 - 1, .Integer 0, none⟩] 1000).map
        (fun r => r.end_timestamp)) = [-9223372036854775617] ∧
    (Int.tdiv (2 ^ 63 - 1) 1000 + 1) * 1000 - 1 = 9223372036854775999 := by
  refine ⟨by decide, by decide, by decide, by decide, by decide⟩


/-! ## Memory-mapped persistence (persistence.rs)

The header is serialized with bincode 1.x defaults: fixed-width
little-endian integers, a one-byte tag for `Option`, one byte for `bool`;
`bincode::deserialize` tolerates trailing bytes.  `load_existing` reads the
header bytes, deserializes, validates magic and version, and verifies the
checksum — every failure is a `TimeSeriesError::Persistence`. -/

/-- `FileHeader` from persistence.rs (u32/u16/u64 fields as bounded `Nat`,
i64/i32 as `Int`). -/
structure FileHeader where
  magic : Nat
  version : Nat
  header_size : Nat
  total_points : Nat
  first_timestamp : Option Int
  last_timestamp : Option Int
  compression_enabled : Bool
  compression_level : Int
  created_at : Nat
  modified_at : Nat
  data_offset : Nat
  checksum : Nat
  deriving DecidableEq, Repr

/-- `MAGIC_NUMBER = 0x42495354` ("BIST"). -/
def MAGIC_NUMBER : Nat := 0x42495354

/-- `FILE_VERSION = 1`. -/
def FILE_VERSION : Nat := 1

/-- `FileHeader::calculate_checksum` (persistence.rs 89–97): chained u64
`wrapping_add` over magic, version, total_points and created_at. -/
def FileHeader.calculateChecksum (h : FileHeader) : Nat :=
  ((((0 + h.magic) % 2 ^ 64 + h.version) % 2 ^ 64 + h.total_points) % 2 ^ 64
    + h.created_at) % 2 ^ 64

/-- Error kinds of `TimeSeriesError` reachable from the persistence path. -/
inductive ErrKind where
  | persistence
  | configuration
  | compressionErr
  deriving DecidableEq, Repr

/-- `MmapStorage::find_write_offset` (persistence.rs 257–264): returns the
header's `data_offset` without scanning the file for existing blocks. -/
def findWriteOffset (header : FileHeader) : Nat := header.data_offset

/-- The loop of `MmapStorage::read_all_data_points` (persistence.rs
392–414), with block decoding abstracted by `readBlockAt` (offset ↦ decoded
points and serialized block size).  Fuel bounds the iteration count; every
real block serializes to at least one byte, so `writeOffset` steps
suffice. -/
def readAllGo (readBlockAt : Nat → Except ErrKind (List DataPoint × Nat))
    (writeOffset : Nat) : Nat → Nat → List DataPoint → Except ErrKind (List DataPoint)
  | 0, _, acc => .ok acc
  | fuel + 1, offset, acc =>
    if offset < writeOffset then
      match readBlockAt offset with
      | .error e => .error e
      | .ok (points, blockSize) =>
        readAllGo readBlockAt writeOffset fuel (offset + blockSize) (acc ++ points)
    else .ok acc

/-- `MmapStorage::read_all_data_points`: scan from `header.data_offset`
while `offset < write_offset`, concatenating the decoded blocks. -/
def readAllDataPoints (header : FileHeader) (writeOffset : Nat)
    (readBlockAt : Nat → Except ErrKind (List DataPoint × Nat)) :
    Except ErrKind (List DataPoint) :=
  readAllGo readBlockAt writeOffset writeOffset header.data_offset []

/-- C1 fails on the code: after reopening a file, `load_existing` sets
`write_offset := find_write_offset() = header.data_offset`, so the read
loop's guard `offset < write_offset` is false at once and
`read_all_data_points` returns the empty list — whatever blocks the file
holds and however they decode.  The repository's own
`test_mmap_storage_persistence` asserts the opposite. -/
theorem C1_reopen_reads_nothing (header : FileHeader)
    (readBlockAt : Nat → Except ErrKind (List DataPoint × Nat)) :
    readAllDataPoints header (findWriteOffset header) readBlockAt = .ok [] := by
  unfold readAllDataPoints findWriteOffset
  cases hdo : header.data_offset with
  | zero => rw [readAllGo]
  | succ n => rw [readAllGo, if_neg (lt_irrefl _)]

/-! ### Header byte serialization (bincode model) -/

/-- Little-endian fixed-width byte encoding. -/
def toLEBytes : Nat → Nat → List Nat
  | 0, _ => []
  | w + 1, v => v % 256 :: toLEBytes w (v / 256)

/-- Little-endian byte decoding. -/
def fromLEBytes : List Nat → Nat
  | [] => 0
  | b :: bs => b + 256 * fromLEBytes bs

theorem length_toLEBytes (w v : Nat) : (toLEBytes w v).length = w := by
  induction w generalizing v with
  | zero => rfl
  | succ w ih => rw [toLEBytes]; simp [ih]

theorem fromLEBytes_toLEBytes (w v : Nat) (h : v < 256 ^ w) :
    fromLEBytes (toLEBytes w v) = v := by
  induction w generalizing v with
  | zero =>
    rw [pow_zero] at h
    interval_cases v
    rfl
  | succ w ih =>
    rw [toLEBytes, fromLEBytes]
    rw [ih (v / 256) (by rw [pow_succ] at h; omega)]
    omega

theorem fromLEBytes_lt (l : List Nat) (h : ∀ b ∈ l, b < 256) :
    fromLEBytes l < 256 ^ l.length := by
  induction l with
  | nil => simp [fromLEBytes]
  | cons a bs ih =>
    rw [fromLEBytes, List.length_cons, pow_succ]
    have ha : a < 256 := h a (List.mem_cons_self _ _)
    have hbs := ih (fun b hb => h b (List.mem_cons_of_mem _ hb))
    calc a + 256 * fromLEBytes bs < 256 + 256 * fromLEBytes bs := by omega
      _ ≤ 256 * 256 ^ bs.length := by omega
      _ = 256 ^ bs.length * 256 := by ring

theorem toLEBytes_bytes_lt (w v : Nat) : ∀ b ∈ toLEBytes w v, b < 256 := by
  induction w generalizing v with
  | zero => simp [toLEBytes]
  | succ w ih =>
    rw [toLEBytes]
    intro b hb
    rcases List.mem_cons.mp hb with h | h
    · rw [h]; exact Nat.mod_lt _ (by omega)
    · exact ih _ b h

theorem fromLEBytes_set_ne (l : List Nat) (d b : Nat) (hd : d < l.length)
    (hne : b ≠ l.getD d 0) : fromLEBytes (l.set d b) ≠ fromLEBytes l := by
  induction l generalizing d with
  | nil => simp at hd
  | cons a bs ih =>
    cases d with
    | zero =>
      rw [List.set_cons_zero, fromLEBytes, fromLEBytes]
      simp [List.getD] at hne
      omega
    | succ d' =>
      rw [List.set_cons_succ, fromLEBytes, fromLEBytes]
      have hd' : d' < bs.length := by simpa using hd
      have hne' : b ≠ bs.getD d' 0 := by simpa [List.getD] using hne
      have := ih d' hd' hne'
      omega


/-- Two's-complement encoding of an i64 as 8 little-endian bytes. -/
def encodeI64 (i : Int) : List Nat := toLEBytes 8 (i % 2 ^ 64).toNat

/-- Decode a u64 bit pattern as an i64. -/
def decodeI64 (u : Nat) : Int := if u < 2 ^ 63 then (u : Int) else (u : Int) - 2 ^ 64

/-- Two's-complement encoding of an i32 as 4 little-endian bytes. -/
def encodeI32 (i : Int) : List Nat := toLEBytes 4 (i % 2 ^ 32).toNat

/-- Decode a u32 bit pattern as an i32. -/
def decodeI32 (u : Nat) : Int := if u < 2 ^ 31 then (u : Int) else (u : Int) - 2 ^ 32

/-- bincode encoding of `Option<i64>`: one tag byte then the payload. -/
def serOptI64 : Option Int → List Nat
  | none => [0]
  | some i => 1 :: encodeI64 i

/-- bincode encoding of `bool`. -/
def serBool : Bool → List Nat
  | false => [0]
  | true => [1]

/-- bincode serialization of `FileHeader` (fixed-width little-endian
fields in declaration order). -/
def serializeHeader (h : FileHeader) : List Nat :=
  toLEBytes 4 h.magic ++ (toLEBytes 2 h.version ++ (toLEBytes 4 h.header_size ++
  (toLEBytes 8 h.total_points ++ (serOptI64 h.first_timestamp ++
  (serOptI64 h.last_timestamp ++ (serBool h.compression_enabled ++
  (encodeI32 h.compression_level ++ (toLEBytes 8 h.created_at ++
  (toLEBytes 8 h.modified_at ++ (toLEBytes 8 h.data_offset ++
  toLEBytes 8 h.checksum))))))))))

/-- Read `n` bytes as a little-endian unsigned integer. -/
def readBytesN (n : Nat) (l : List Nat) : Option (Nat × List Nat) :=
  if n ≤ l.length then some (fromLEBytes (l.take n), l.drop n) else none

/-- Read a bincode `Option<i64>`: tag byte 0 or 1, anything else is a
deserialization error. -/
def readOptI64 : List Nat → Option (Option Int × List Nat)
  | 0 :: rest => some (none, rest)
  | 1 :: rest => Option.map (fun ur => (some (decodeI64 ur.1), ur.2)) (readBytesN 8 rest)
  | _ => none

/-- Read a bincode `bool`: byte 0 or 1, anything else is a
deserialization error. -/
def readBool : List Nat → Option (Bool × List Nat)
  | 0 :: rest => some (false, rest)
  | 1 :: rest => some (true, rest)
  | _ => none

/-- bincode deserialization of `FileHeader` (trailing bytes allowed, as by
`bincode::deserialize`). -/
def deserializeHeader (l : List Nat) : Option FileHeader := do
  let (magic, l) ← readBytesN 4 l
  let (version, l) ← readBytesN 2 l
  let (hsize, l) ← readBytesN 4 l
  let (tp, l) ← readBytesN 8 l
  let (fts, l) ← readOptI64 l
  let (lts, l) ← readOptI64 l
  let (ce, l) ← readBool l
  let (clv, l) ← readBytesN 4 l
  let (ca, l) ← readBytesN 8 l
  let (mo, l) ← readBytesN 8 l
  let (dof, l) ← readBytesN 8 l
  let (ck, _) ← readBytesN 8 l
  pure ⟨magic, version, hsize, tp, fts, lts, ce, decodeI32 clv, ca, mo, dof, ck⟩

/-- `FileHeader::validate` followed by `verify_checksum` as performed by
`load_existing`: magic, then version, then the checksum equation; every
failure is a `Persistence` error. -/
def validateAndVerify (h : FileHeader) : Except ErrKind FileHeader :=
  if h.magic ≠ MAGIC_NUMBER then .error .persistence
  else if h.version ≠ FILE_VERSION then .error .persistence
  else if h.checksum ≠ h.calculateChecksum then .error .persistence
  else .ok h

/-- The header-handling prefix of `MmapStorage::load_existing`
(persistence.rs 204–238): deserialize, `validate()` (magic then version),
`verify_checksum()`; every failure is a `Persistence` error. -/
def loadHeader (bytes : List Nat) : Except ErrKind FileHeader :=
  match deserializeHeader bytes with
  | none => .error .persistence
  | some h => validateAndVerify h

/-- i64 range predicate for the optional timestamp fields. -/
def optI64Range : Option Int → Prop
  | none => True
  | some i => -(2 ^ 63) ≤ i ∧ i < 2 ^ 63

instance : ∀ o, Decidable (optI64Range o) := fun o => by
  cases o <;> unfold optI64Range <;> infer_instance

theorem readBytesN_chunk (n : Nat) (c rest : List Nat) (hc : c.length = n) :
    readBytesN n (c ++ rest) = some (fromLEBytes c, rest) := by
  unfold readBytesN
  rw [if_pos (by simp [← hc])]
  subst hc
  rw [List.take_left, List.drop_left]


theorem toLEBytes_fromLEBytes (l : List Nat) (h : ∀ b ∈ l, b < 256) :
    toLEBytes l.length (fromLEBytes l) = l := by
  induction l with
  | nil => rfl
  | cons a bs ih =>
    rw [List.length_cons, fromLEBytes, toLEBytes]
    have ha : a < 256 := h a (List.mem_cons_self _ _)
    have h1 : (a + 256 * fromLEBytes bs) % 256 = a := by omega
    have h2 : (a + 256 * fromLEBytes bs) / 256 = fromLEBytes bs := by omega
    rw [h1, h2, ih (fun b hb => h b (List.mem_cons_of_mem _ hb))]

theorem decodeI64_encode (i : Int) (h1 : -(2 ^ 63) ≤ i) (h2 : i < 2 ^ 63) :
    decodeI64 (fromLEBytes (encodeI64 i)) = i := by
  unfold encodeI64
  have hb : (256 : Nat) ^ 8 = 2 ^ 64 := by norm_num
  rw [fromLEBytes_toLEBytes 8 _ (by rw [hb]; omega)]
  unfold decodeI64
  split <;> omega

theorem readOptI64_ser (x : Option Int) (rest : List Nat) (hx : optI64Range x) :
    readOptI64 (serOptI64 x ++ rest) = some (x, rest) := by
  cases x with
  | none => rfl
  | some i =>
    obtain ⟨h1, h2⟩ := hx
    show readOptI64 (1 :: (encodeI64 i ++ rest)) = some (some i, rest)
    rw [readOptI64, readBytesN_chunk 8 (encodeI64 i) rest (length_toLEBytes 8 _),
      Option.map_some']
    simp only []
    rw [decodeI64_encode i h1 h2]

theorem readBool_ser (b : Bool) (rest : List Nat) :
    readBool (serBool b ++ rest) = some (b, rest) := by
  cases b <;> rfl

theorem readBytesN_all (n : Nat) (c : List Nat) (hc : c.length = n) :
    readBytesN n c = some (fromLEBytes c, []) := by
  unfold readBytesN
  rw [if_pos (le_of_eq hc.symm)]
  subst hc
  rw [List.take_length, List.drop_length]

theorem decodeI32_encode (i : Int) (h1 : -(2 ^ 31) ≤ i) (h2 : i < 2 ^ 31) :
    decodeI32 (fromLEBytes (encodeI32 i)) = i := by
  unfold encodeI32
  have hb : (256 : Nat) ^ 4 = 2 ^ 32 := by norm_num
  rw [fromLEBytes_toLEBytes 4 _ (by rw [hb]; omega)]
  unfold decodeI32
  split <;> omega

/-- The machine-integer range constraints on the header fields (satisfied
by construction by every header the code builds). -/
def HeaderInRange (h : FileHeader) : Prop :=
  h.magic < 2 ^ 32 ∧ h.version < 2 ^ 16 ∧ h.header_size < 2 ^ 32 ∧
  h.total_points < 2 ^ 64 ∧
  optI64Range h.first_timestamp ∧ optI64Range h.last_timestamp ∧
  (-(2 ^ 31) ≤ h.compression_level ∧ h.compression_level < 2 ^ 31) ∧
  h.created_at < 2 ^ 64 ∧ h.modified_at < 2 ^ 64 ∧ h.data_offset < 2 ^ 64 ∧
  h.checksum < 2 ^ 64

instance (h : FileHeader) : Decidable (HeaderInRange h) := by
  unfold HeaderInRange; infer_instance

/-- A header as actually stored: magic and version correct, every field in
its machine-integer range, checksum consistent. -/
def WellFormedHeader (h : FileHeader) : Prop :=
  h.magic = MAGIC_NUMBER ∧ h.version = FILE_VERSION ∧
  h.checksum = h.calculateChecksum ∧ HeaderInRange h

instance (h : FileHeader) : Decidable (WellFormedHeader h) := by
  unfold WellFormedHeader; infer_instance

set_option maxHeartbeats 2000000 in
theorem deserializeHeader_serializeHeader (h : FileHeader) (hr : HeaderInRange h) :
    deserializeHeader (serializeHeader h) = some h := by
  obtain ⟨hm, hv, hhs, htp, hft, hlt, hcl, hca, hmo, hdo, hck⟩ := hr
  have e256_2 : (256 : Nat) ^ 2 = 2 ^ 16 := by norm_num
  have e256_4 : (256 : Nat) ^ 4 = 2 ^ 32 := by norm_num
  have e256_8 : (256 : Nat) ^ 8 = 2 ^ 64 := by norm_num
  unfold deserializeHeader serializeHeader
  rw [readBytesN_chunk 4 _ _ (length_toLEBytes 4 _)]
  simp only [Option.bind_eq_bind]
  simp only [Option.some_bind]
  rw [readBytesN_chunk 2 _ _ (length_toLEBytes 2 _)]
  simp only [Option.some_bind]
  rw [readBytesN_chunk 4 _ _ (length_toLEBytes 4 _)]
  simp only [Option.some_bind]
  rw [readBytesN_chunk 8 _ _ (length_toLEBytes 8 _)]
  simp only [Option.some_bind]
  rw [readOptI64_ser _ _ hft]
  simp only [Option.some_bind]
  rw [readOptI64_ser _ _ hlt]
  simp only [Option.some_bind]
  rw [readBool_ser]
  simp only [Option.some_bind]
  rw [readBytesN_chunk 4 (encodeI32 h.compression_level) _ (length_toLEBytes 4 _)]
  simp only [Option.some_bind]
  rw [readBytesN_chunk 8 _ _ (length_toLEBytes 8 _)]
  simp only [Option.some_bind]
  rw [readBytesN_chunk 8 _ _ (length_toLEBytes 8 _)]
  simp only [Option.some_bind]
  rw [readBytesN_chunk 8 _ _ (length_toLEBytes 8 _)]
  simp only [Option.some_bind]
  rw [readBytesN_all 8 _ (length_toLEBytes 8 _)]
  simp only [Option.some_bind]
  rw [fromLEBytes_toLEBytes 4 _ (by rw [e256_4]; omega),
    fromLEBytes_toLEBytes 2 _ (by rw [e256_2]; omega),
    fromLEBytes_toLEBytes 4 _ (by rw [e256_4]; omega),
    fromLEBytes_toLEBytes 8 _ (by rw [e256_8]; omega),
    fromLEBytes_toLEBytes 8 _ (by rw [e256_8]; omega),
    fromLEBytes_toLEBytes 8 _ (by rw [e256_8]; omega),
    fromLEBytes_toLEBytes 8 _ (by rw [e256_8]; omega),
    fromLEBytes_toLEBytes 8 _ (by rw [e256_8]; omega)]
  rw [decodeI32_encode _ hcl.1 hcl.2]
  rfl


theorem length_serOptI64 (x : Option Int) :
    (serOptI64 x).length = (match x with | none => 1 | some _ => 9) := by
  cases x with
  | none => rfl
  | some i =>
    show (1 :: encodeI64 i).length = 9
    rw [List.length_cons]
    rw [show (encodeI64 i).length = 8 from length_toLEBytes 8 _]

theorem length_serBool (b : Bool) : (serBool b).length = 1 := by
  cases b <;> rfl

theorem length_encodeI32 (i : Int) : (encodeI32 i).length = 4 := length_toLEBytes 4 _

theorem set_append_left' {α : Type} (l₁ l₂ : List α) (i : Nat) (hi : i < l₁.length) (b : α) :
    (l₁ ++ l₂).set i b = l₁.set i b ++ l₂ := by
  rw [List.set_append, if_pos hi]

theorem set_append_skip' {α : Type} (l₁ l₂ : List α) (d : Nat) (b : α) :
    (l₁ ++ l₂).set (l₁.length + d) b = l₁ ++ l₂.set d b := by
  rw [List.set_append, if_neg (by omega)]
  have hsub : l₁.length + d - l₁.length = d := by omega
  rw [hsub]

theorem getD_append_skip (l₁ l₂ : List Nat) (d : Nat) :
    (l₁ ++ l₂).getD (l₁.length + d) 0 = l₂.getD d 0 := by
  simp [List.getD_eq_getElem?_getD, List.getElem?_append_right]

theorem fromLE_set_lt (w v d b : Nat) (hb : b < 256) :
    fromLEBytes ((toLEBytes w v).set d b) < 256 ^ w := by
  have hlen : ((toLEBytes w v).set d b).length = w := by
    rw [List.length_set, length_toLEBytes]
  have hbytes : ∀ x ∈ (toLEBytes w v).set d b, x < 256 := by
    intro x hx
    rcases List.mem_or_eq_of_mem_set hx with h | h
    · exact toLEBytes_bytes_lt w v x h
    · rw [h]; exact hb
  have := fromLEBytes_lt _ hbytes
  rwa [hlen] at this

theorem toLE_fromLE_set (w v d b : Nat) (hb : b < 256) :
    toLEBytes w (fromLEBytes ((toLEBytes w v).set d b)) = (toLEBytes w v).set d b := by
  have hlen : ((toLEBytes w v).set d b).length = w := by
    rw [List.length_set, length_toLEBytes]
  have hbytes : ∀ x ∈ (toLEBytes w v).set d b, x < 256 := by
    intro x hx
    rcases List.mem_or_eq_of_mem_set hx with h | h
    · exact toLEBytes_bytes_lt w v x h
    · rw [h]; exact hb
  have h2 := toLEBytes_fromLEBytes _ hbytes
  rwa [hlen] at h2

theorem fromLE_set_ne_self (w v d b : Nat) (hv : v < 256 ^ w) (hd : d < w)
    (hne : b ≠ (toLEBytes w v).getD d 0) :
    fromLEBytes ((toLEBytes w v).set d b) ≠ v := by
  have h := fromLEBytes_set_ne (toLEBytes w v) d b (by rw [length_toLEBytes]; exact hd) hne
  rw [fromLEBytes_toLEBytes w v hv] at h
  exact h


theorem loadHeader_of_deser {bytes : List Nat} {hh : FileHeader}
    (hd : deserializeHeader bytes = some hh) :
    loadHeader bytes = validateAndVerify hh := by
  unfold loadHeader
  rw [hd]

/-- Serialized length of a bincode `Option<i64>`. -/
def optLen : Option Int → Nat
  | none => 1
  | some _ => 9

theorem length_serOptI64_optLen (x : Option Int) : (serOptI64 x).length = optLen x := by
  cases x with
  | none => rfl
  | some i =>
    show (1 :: encodeI64 i).length = 9
    rw [List.length_cons, show (encodeI64 i).length = 8 from length_toLEBytes 8 _]

/-- Byte offset of the `created_at` field in the serialized header. -/
def createdAtOffset (h : FileHeader) : Nat :=
  23 + optLen h.first_timestamp + optLen h.last_timestamp

/-- The serialized byte positions of the checksum-covered fields: magic
(0–3), version (4–5), total_points (10–17) and created_at (8 bytes at its
layout-dependent offset). -/
def coveredIndices (h : FileHeader) : List Nat :=
  List.range 4 ++ ((List.range 2).map (fun d => 4 + d)
    ++ ((List.range 8).map (fun d => 10 + d)
    ++ (List.range 8).map (fun d => createdAtOffset h + d)))

theorem mutate_magic (h : FileHeader) (d b : Nat) (hd : d < 4) (hb : b < 256) :
    (serializeHeader h).set d b
      = serializeHeader { h with magic := fromLEBytes ((toLEBytes 4 h.magic).set d b) } ∧
    (serializeHeader h).getD d 0 = (toLEBytes 4 h.magic).getD d 0 := by
  constructor
  · show ((toLEBytes 4 h.magic) ++ _).set d b = _
    rw [set_append_left' _ _ d (by rw [length_toLEBytes]; exact hd) b]
    show _ = toLEBytes 4 (fromLEBytes ((toLEBytes 4 h.magic).set d b)) ++ _
    rw [toLE_fromLE_set 4 h.magic d b hb]
  · exact List.getD_append _ _ _ _ (by rw [length_toLEBytes]; exact hd)

theorem mutate_version (h : FileHeader) (d b : Nat) (hd : d < 2) (hb : b < 256) :
    (serializeHeader h).set (4 + d) b
      = serializeHeader { h with version := fromLEBytes ((toLEBytes 2 h.version).set d b) } ∧
    (serializeHeader h).getD (4 + d) 0 = (toLEBytes 2 h.version).getD d 0 := by
  have h4 : ∀ r : Nat, 4 + r = (toLEBytes 4 h.magic).length + r := by
    intro r
    rw [length_toLEBytes]
  constructor
  · show ((toLEBytes 4 h.magic) ++ _).set (4 + d) b = _
    rw [h4 d, set_append_skip']
    rw [set_append_left' _ _ d (by rw [length_toLEBytes]; exact hd) b]
    show _ = toLEBytes 4 h.magic ++ (toLEBytes 2 (fromLEBytes ((toLEBytes 2 h.version).set d b)) ++ _)
    rw [toLE_fromLE_set 2 h.version d b hb]
  · show ((toLEBytes 4 h.magic) ++ _).getD (4 + d) 0 = _
    rw [h4 d, getD_append_skip]
    exact List.getD_append _ _ _ _ (by rw [length_toLEBytes]; exact hd)

theorem mutate_total_points (h : FileHeader) (d b : Nat) (hd : d < 8) (hb : b < 256) :
    (serializeHeader h).set (10 + d) b
      = serializeHeader
          { h with total_points := fromLEBytes ((toLEBytes 8 h.total_points).set d b) } ∧
    (serializeHeader h).getD (10 + d) 0 = (toLEBytes 8 h.total_points).getD d 0 := by
  have h4 : ∀ r : Nat, 4 + r = (toLEBytes 4 h.magic).length + r := by
    intro r
    rw [length_toLEBytes]
  have h2 : ∀ r : Nat, 2 + r = (toLEBytes 2 h.version).length + r := by
    intro r
    rw [length_toLEBytes]
  have h4b : ∀ r : Nat, 4 + r = (toLEBytes 4 h.header_size).length + r := by
    intro r
    rw [length_toLEBytes]
  constructor
  · show ((toLEBytes 4 h.magic) ++ _).set (10 + d) b = _
    rw [show 10 + d = 4 + (6 + d) from by omega, h4 (6 + d), set_append_skip']
    rw [show 6 + d = 2 + (4 + d) from by omega, h2 (4 + d), set_append_skip']
    rw [h4b d, set_append_skip']
    rw [set_append_left' _ _ d (by rw [length_toLEBytes]; exact hd) b]
    show _ = toLEBytes 4 h.magic ++ (toLEBytes 2 h.version ++ (toLEBytes 4 h.header_size ++
      (toLEBytes 8 (fromLEBytes ((toLEBytes 8 h.total_points).set d b)) ++ _)))
    rw [toLE_fromLE_set 8 h.total_points d b hb]
  · show ((toLEBytes 4 h.magic) ++ _).getD (10 + d) 0 = _
    rw [show 10 + d = 4 + (6 + d) from by omega, h4 (6 + d), getD_append_skip]
    rw [show 6 + d = 2 + (4 + d) from by omega, h2 (4 + d), getD_append_skip]
    rw [h4b d, getD_append_skip]
    exact List.getD_append _ _ _ _ (by rw [length_toLEBytes]; exact hd)

theorem mutate_created_at (h : FileHeader) (d b : Nat) (hd : d < 8) (hb : b < 256) :
    (serializeHeader h).set (createdAtOffset h + d) b
      = serializeHeader
          { h with created_at := fromLEBytes ((toLEBytes 8 h.created_at).set d b) } ∧
    (serializeHeader h).getD (createdAtOffset h + d) 0
      = (toLEBytes 8 h.created_at).getD d 0 := by
  have h4 : ∀ r : Nat, 4 + r = (toLEBytes 4 h.magic).length + r := by
    intro r
    rw [length_toLEBytes]
  have h2 : ∀ r : Nat, 2 + r = (toLEBytes 2 h.version).length + r := by
    intro r
    rw [length_toLEBytes]
  have h4b : ∀ r : Nat, 4 + r = (toLEBytes 4 h.header_size).length + r := by
    intro r
    rw [length_toLEBytes]
  have h8 : ∀ r : Nat, 8 + r = (toLEBytes 8 h.total_points).length + r := by
    intro r
    rw [length_toLEBytes]
  have hoF : ∀ r : Nat, optLen h.first_timestamp + r
      = (serOptI64 h.first_timestamp).length + r := by
    intro r
    rw [length_serOptI64_optLen]
  have hoL : ∀ r : Nat, optLen h.last_timestamp + r
      = (serOptI64 h.last_timestamp).length + r := by
    intro r
    rw [length_serOptI64_optLen]
  have h1 : ∀ r : Nat, 1 + r = (serBool h.compression_enabled).length + r := by
    intro r
    rw [length_serBool]
  have h4c : ∀ r : Nat, 4 + r = (encodeI32 h.compression_level).length + r := by
    intro r
    rw [length_encodeI32]
  have hoff : createdAtOffset h + d
      = 4 + (2 + (4 + (8 + (optLen h.first_timestamp
        + (optLen h.last_timestamp + (1 + (4 + d))))))) := by
    unfold createdAtOffset
    omega
  constructor
  · show ((toLEBytes 4 h.magic) ++ _).set (createdAtOffset h + d) b = _
    rw [hoff, h4 _, set_append_skip', h2 _, set_append_skip', h4b _, set_append_skip',
      h8 _, set_append_skip', hoF _, set_append_skip', hoL _, set_append_skip',
      h1 _, set_append_skip', h4c _, set_append_skip']
    rw [set_append_left' _ _ d (by rw [length_toLEBytes]; exact hd) b]
    show _ = toLEBytes 4 h.magic ++ (toLEBytes 2 h.version ++ (toLEBytes 4 h.header_size ++
      (toLEBytes 8 h.total_points ++ (serOptI64 h.first_timestamp ++
      (serOptI64 h.last_timestamp ++ (serBool h.compression_enabled ++
      (encodeI32 h.compression_level ++
      (toLEBytes 8 (fromLEBytes ((toLEBytes 8 h.created_at).set d b)) ++ _))))))))
    rw [toLE_fromLE_set 8 h.created_at d b hb]
  · show ((toLEBytes 4 h.magic) ++ _).getD (createdAtOffset h + d) 0 = _
    rw [hoff, h4 _, getD_append_skip, h2 _, getD_append_skip, h4b _, getD_append_skip,
      h8 _, getD_append_skip, hoF _, getD_append_skip, hoL _, getD_append_skip,
      h1 _, getD_append_skip, h4c _, getD_append_skip]
    exact List.getD_append _ _ _ _ (by rw [length_toLEBytes]; exact hd)


theorem validate_bad_magic (h : FileHeader) (hm : h.magic ≠ MAGIC_NUMBER) :
    validateAndVerify h = .error .persistence := by
  unfold validateAndVerify
  rw [if_pos hm]

theorem validate_bad_version (h : FileHeader) (hm : h.magic = MAGIC_NUMBER)
    (hv : h.version ≠ FILE_VERSION) :
    validateAndVerify h = .error .persistence := by
  unfold validateAndVerify
  rw [if_neg (show ¬h.magic ≠ MAGIC_NUMBER from not_not_intro hm), if_pos hv]

theorem validate_bad_checksum (h : FileHeader) (hm : h.magic = MAGIC_NUMBER)
    (hv : h.version = FILE_VERSION) (hc : h.checksum ≠ h.calculateChecksum) :
    validateAndVerify h = .error .persistence := by
  unfold validateAndVerify
  rw [if_neg (show ¬h.magic ≠ MAGIC_NUMBER from not_not_intro hm),
    if_neg (show ¬h.version ≠ FILE_VERSION from not_not_intro hv), if_pos hc]

/-- C9: the header checksum is the wrapping 64-bit sum of magic, version,
total_points and created_at, and on any well-formed header, flipping any
single serialized byte of one of those covered fields to a different value
makes loading the header fail with a `Persistence` error (the magic or
version check fires for their regions, the checksum check for the other
two). -/
theorem C9_header_checksum (h : FileHeader) (hwf : WellFormedHeader h)
    (i b : Nat) (hi : i ∈ coveredIndices h) (hb : b < 256)
    (hne : b ≠ (serializeHeader h).getD i 0) :
    h.calculateChecksum
      = (h.magic + h.version + h.total_points + h.created_at) % 2 ^ 64 ∧
    loadHeader ((serializeHeader h).set i b) = .error .persistence := by
  obtain ⟨hm, hv, hck, hr⟩ := hwf
  obtain ⟨hrm, hrv, hrhs, hrtp, hrft, hrlt, hrcl, hrca, hrmo, hrdo, hrck⟩ := hr
  have e32 : (256 : Nat) ^ 4 = 2 ^ 32 := by norm_num
  have e16 : (256 : Nat) ^ 2 = 2 ^ 16 := by norm_num
  have e64 : (256 : Nat) ^ 8 = 2 ^ 64 := by norm_num
  refine ⟨by unfold FileHeader.calculateChecksum; omega, ?_⟩
  simp only [coveredIndices, List.mem_append, List.mem_range, List.mem_map] at hi
  rcases hi with hi | ⟨d, hd, hdi⟩ | ⟨d, hd, hdi⟩ | ⟨d, hd, hdi⟩
  · obtain ⟨hset, hgetD⟩ := mutate_magic h i b hi hb
    rw [hgetD] at hne
    rw [hset]
    have hX : fromLEBytes ((toLEBytes 4 h.magic).set i b) < 2 ^ 32 := by
      have h1 := fromLE_set_lt 4 h.magic i b hb
      rwa [e32] at h1
    have hr' : HeaderInRange
        { h with magic := fromLEBytes ((toLEBytes 4 h.magic).set i b) } :=
      ⟨hX, hrv, hrhs, hrtp, hrft, hrlt, hrcl, hrca, hrmo, hrdo, hrck⟩
    rw [loadHeader_of_deser (deserializeHeader_serializeHeader _ hr')]
    refine validate_bad_magic _ ?_
    show fromLEBytes ((toLEBytes 4 h.magic).set i b) ≠ MAGIC_NUMBER
    rw [← hm]
    exact fromLE_set_ne_self 4 h.magic i b (by rw [e32]; exact hrm) hi hne
  · subst hdi
    obtain ⟨hset, hgetD⟩ := mutate_version h d b hd hb
    rw [hgetD] at hne
    rw [hset]
    have hX : fromLEBytes ((toLEBytes 2 h.version).set d b) < 2 ^ 16 := by
      have h1 := fromLE_set_lt 2 h.version d b hb
      rwa [e16] at h1
    have hr' : HeaderInRange
        { h with version := fromLEBytes ((toLEBytes 2 h.version).set d b) } :=
      ⟨hrm, hX, hrhs, hrtp, hrft, hrlt, hrcl, hrca, hrmo, hrdo, hrck⟩
    rw [loadHeader_of_deser (deserializeHeader_serializeHeader _ hr')]
    refine validate_bad_version _ hm ?_
    show fromLEBytes ((toLEBytes 2 h.version).set d b) ≠ FILE_VERSION
    rw [← hv]
    exact fromLE_set_ne_self 2 h.version d b (by rw [e16]; exact hrv) hd hne
  · subst hdi
    obtain ⟨hset, hgetD⟩ := mutate_total_points h d b hd hb
    rw [hgetD] at hne
    rw [hset]
    have hX : fromLEBytes ((toLEBytes 8 h.total_points).set d b) < 2 ^ 64 := by
      have h1 := fromLE_set_lt 8 h.total_points d b hb
      rwa [e64] at h1
    have hr' : HeaderInRange
        { h with total_points := fromLEBytes ((toLEBytes 8 h.total_points).set d b) } :=
      ⟨hrm, hrv, hrhs, hX, hrft, hrlt, hrcl, hrca, hrmo, hrdo, hrck⟩
    rw [loadHeader_of_deser (deserializeHeader_serializeHeader _ hr')]
    refine validate_bad_checksum _ hm hv ?_
    have hne_tp : fromLEBytes ((toLEBytes 8 h.total_points).set d b) ≠ h.total_points :=
      fromLE_set_ne_self 8 h.total_points d b (by rw [e64]; exact hrtp) hd hne
    show h.checksum ≠ ((((0 + h.magic) % 2 ^ 64 + h.version) % 2 ^ 64
      + fromLEBytes ((toLEBytes 8 h.total_points).set d b)) % 2 ^ 64
      + h.created_at) % 2 ^ 64
    rw [hck]
    unfold FileHeader.calculateChecksum
    omega
  · subst hdi
    obtain ⟨hset, hgetD⟩ := mutate_created_at h d b hd hb
    rw [hgetD] at hne
    rw [hset]
    have hX : fromLEBytes ((toLEBytes 8 h.created_at).set d b) < 2 ^ 64 := by
      have h1 := fromLE_set_lt 8 h.created_at d b hb
      rwa [e64] at h1
    have hr' : HeaderInRange
        { h with created_at := fromLEBytes ((toLEBytes 8 h.created_at).set d b) } :=
      ⟨hrm, hrv, hrhs, hrtp, hrft, hrlt, hrcl, hX, hrmo, hrdo, hrck⟩
    rw [loadHeader_of_deser (deserializeHeader_serializeHeader _ hr')]
    refine validate_bad_checksum _ hm hv ?_
    have hne_ca : fromLEBytes ((toLEBytes 8 h.created_at).set d b) ≠ h.created_at :=
      fromLE_set_ne_self 8 h.created_at d b (by rw [e64]; exact hrca) hd hne
    show h.checksum ≠ ((((0 + h.magic) % 2 ^ 64 + h.version) % 2 ^ 64
      + h.total_points) % 2 ^ 64
      + fromLEBytes ((toLEBytes 8 h.created_at).set d b)) % 2 ^ 64
    rw [hck]
    unfold FileHeader.calculateChecksum
    omega

/-- A concrete well-formed header used to instantiate the checksum theorem. -/
def hdr0 : FileHeader :=
  { magic := 0x42495354, version := 1, header_size := 64, total_points := 3,
    first_timestamp := some 100, last_timestamp := some 300,
    compression_enabled := true, compression_level := 3,
    created_at := 1000, modified_at := 2000, data_offset := 64,
    checksum := (0x42495354 + 1 + 3 + 1000) % 2 ^ 64 }

/-- Witness for `C9_header_checksum`: on the concrete header `hdr0`,
flipping serialized byte 10 (the low byte of `total_points`) to 1 makes the
load path fail with a persistence error. -/
theorem C9_header_checksum_witness :
    WellFormedHeader hdr0 ∧ 10 ∈ coveredIndices hdr0 ∧ (1 : Nat) < 256 ∧
    (1 : Nat) ≠ (serializeHeader hdr0).getD 10 0 ∧
    (hdr0.calculateChecksum
        = (hdr0.magic + hdr0.version + hdr0.total_points + hdr0.created_at) % 2 ^ 64 ∧
      loadHeader ((serializeHeader hdr0).set 10 1) = .error .persistence) :=
  ⟨by decide, by decide, by decide, by decide,
    C9_header_checksum hdr0 (by decide) 10 1 (by decide) (by decide) (by decide)⟩

end Bifrost
